import Mathlib

/-!
# Verification of the `cylon` robots-exclusion DFA (compiler + matcher)

Shallow embedding of `src/dfa.rs`.  Strings are modelled as `List Char`
(the Rust code iterates over `chars()`; slices at `parent_prefix.len() + 1`
are modelled as `List.take` at the corresponding character count).
The Rust `while !queue.is_empty()` loop is modelled by a fuel-indexed
recursion `buildLoop`; the fuel `compileFuel` is proven sufficient below
(`compile_queue_empty`), so `Cylon.compile` computes exactly the fixpoint
the Rust loop reaches.  Panics (`unwrap`, out-of-bounds indexing,
`unreachable!`) in the matcher are modelled by `Option`: `Cylon.allow`
returns `none` exactly when the Rust `allow` would panic.
-/

namespace Cylon2Proof

/-- A path / pattern: sequence of characters. -/
abbrev Path := List Char

/-- `enum Rule<'a> { Allow(&'a str), Disallow(&'a str) }` -/
inductive Rule where
  | allow : Path → Rule
  | disallow : Path → Rule
deriving DecidableEq, Repr

/-- `Rule::inner` -/
def Rule.inner : Rule → Path
  | .allow p => p
  | .disallow p => p

/-- `enum Edge { MatchChar(char), MatchAny, MatchEow }` -/
inductive Edge where
  | matchChar : Char → Edge
  | matchAny : Edge
  | matchEow : Edge
deriving DecidableEq, Repr

/-- `struct Transition(Edge, usize)` -/
structure Transition where
  edge : Edge
  next : Nat
deriving DecidableEq, Repr

/-- `enum State { Allow, Disallow, Intermediate }` -/
inductive State where
  | allow
  | disallow
  | intermediate
deriving DecidableEq, Repr

/-- `struct Cylon { states: Vec<State>, transitions: Vec<Vec<Transition>> }` -/
structure Cylon where
  states : List State
  transitions : List (List Transition)
deriving DecidableEq, Repr

/-! ## The matcher (`Cylon::allow`) -/

/-- The predicate used inside the per-character `find` of `Cylon::allow`:
a `MatchAny` edge always applies, a `MatchEow` edge never applies
mid-string, and a `MatchChar` edge applies iff the characters agree. -/
def charPred (pathChar : Char) (tr : Transition) : Bool :=
  match tr.edge with
  | .matchAny => true
  | .matchEow => false
  | .matchChar edgeChar => edgeChar == pathChar

/-- The predicate used in the end-of-word `find` of `Cylon::allow`. -/
def eowPred (tr : Transition) : Bool :=
  match tr.edge with
  | .matchEow => true
  | .matchAny => true
  | .matchChar _ => false

/-- The character-consuming fold of `Cylon::allow`
(`path.chars().fold(2, ...)`).  Each step looks up the current state's
transition list (index out of bounds ⇒ `none`, the Rust panic), scans it
from the most recently appended edge backwards (`iter().rev().find`),
and follows the first applicable edge; a failed scan is the Rust
`unwrap` panic, modelled as `none`. -/
def runChars (m : Cylon) : Nat → Path → Option Nat
  | state, [] => some state
  | state, c :: cs =>
    match m.transitions.get? state with
    | none => none
    | some t =>
      match (t.reverse.find? (charPred c)).map Transition.next with
      | none => none
      | some next => runChars m next cs

/-- `Cylon::allow`.  Returns `some true` / `some false` where the Rust
code returns `true` / `false`, and `none` where the Rust code panics
(failed `unwrap`, index out of bounds, or the `unreachable!()` branch
for an `Intermediate` final state). -/
def Cylon.allow (m : Cylon) (path : Path) : Option Bool :=
  match runChars m 2 path with
  | none => none
  | some state =>
    match m.transitions.get? state with
    | none => none
    | some t =>
      -- Follow the EoW transition, if necessary
      let state := ((t.reverse.find? eowPred).map Transition.next).getD state
      match m.states.get? state with
      | some .allow => some true
      | some .disallow => some false
      | some .intermediate => none  -- `unreachable!()`
      | none => none

/-! ## The compiler (`Cylon::compile`) -/

/-- Strict lexicographic order on `List Char`, matching `Ord::cmp` on
Rust `&str` (UTF-8 byte order coincides with code-point order, which is
the order `<` on `Char` compares by). -/
def lexLt : Path → Path → Bool
  | [], [] => false
  | [], _ :: _ => true
  | _ :: _, [] => false
  | a :: as_, b :: bs =>
    if a < b then true
    else if b < a then false
    else lexLt as_ bs

/-- Insert a rule into a list sorted by `lexLt` on patterns, keeping it
before any rule with an equal pattern that was inserted earlier from
further right in the input (this makes `sortRules` stable, like Rust's
`sort_by`). -/
def insertRule (r : Rule) : List Rule → List Rule
  | [] => [r]
  | x :: xs =>
    if lexLt x.inner r.inner then x :: insertRule r xs
    else r :: x :: xs

/-- `rules.sort_by(|a, b| Ord::cmp(a.inner(), b.inner()))`: a stable
sort, ascending lexicographically by pattern. -/
def sortRules : List Rule → List Rule
  | [] => []
  | x :: xs => insertRule x (sortRules xs)

/-- One entry of the work queue:
`(parent_prefix, wildcard_state, parent_state, state)`. -/
structure QItem where
  pfx : Path
  wildcard : Nat
  parent : Nat
  state : State
deriving DecidableEq, Repr

/-- The mutable compilation state: the `states` and `transitions`
vectors together with the work queue. -/
structure BState where
  states : List State
  transitions : List (List Transition)
  queue : List QItem
deriving DecidableEq, Repr

/-- The accumulator of the child-visiting `for_each`:
`curr_prefix`, the queue (which grows by `queue.push`), the transition
list `t` under construction, and the `transitions` vector (whose
`parent_state` entry may be extended when the parent ends in `'*'`). -/
structure FoldSt where
  curr : Path
  queue : List QItem
  t : List Transition
  transitions : List (List Transition)
deriving DecidableEq, Repr

/-- Edge kind chosen from the child's last character
(`match edge_char { '*' => MatchAny, '$' => MatchEow, c => MatchChar(c) }`). -/
def edgeOf (c : Char) : Edge :=
  if c = '*' then .matchAny
  else if c = '$' then .matchEow
  else .matchChar c

/-- The filter applied in each loop iteration: rules whose pattern
strictly extends the prefix `P`
(`.filter(starts_with(parent_prefix)).filter(!= parent_prefix)`). -/
def extending (rules : List Rule) (P : Path) : List Rule :=
  rules.filter fun r => P.isPrefixOf r.inner && r.inner ≠ P

/-- The body of the `for_each` over rules whose pattern strictly extends
the parent prefix.  `pfx`/`lastChar` describe the node being expanded,
`wildcard` is its (already reassigned) wildcard state, `parentState` its
parent's index, and `n` the value of `transitions.len()` during this
loop iteration (constant: only an existing entry is mutated). -/
def visitChild (pfx : Path) (lastChar : Option Char) (wildcard : Nat)
    (parentState : Nat) (n : Nat) (acc : FoldSt) (rule : Rule) : FoldSt :=
  let path := rule.inner
  let childPfx := path.take (pfx.length + 1)
  if acc.curr = childPfx then
    -- visit each child only once; skip duplicates of the same child pfx
    acc
  else
    let eow := childPfx == path
    let state : State :=
      match rule, eow with
      | .allow _, true => .allow
      | .disallow _, true => .disallow
      | _, _ => .intermediate
    let queue' := acc.queue ++ [⟨childPfx, wildcard, n, state⟩]
    -- NB: the child's state index is predictable before it is pushed
    let childIndex := n + queue'.length
    let edgeChar := childPfx.getLast?.getD ' '
    let tr : Transition := ⟨edgeOf edgeChar, childIndex⟩
    let transitions' :=
      if lastChar = some '*' then
        acc.transitions.set parentState
          ((acc.transitions.getD parentState []) ++ [tr])
      else acc.transitions
    { curr := childPfx, queue := queue', t := acc.t ++ [tr],
      transitions := transitions' }

/-- One iteration of the `while !queue.is_empty()` loop, processing the
queue item `item` (`queue.remove(0)`) with `rest` the remaining queue. -/
def stepItem (rules : List Rule) (bs : BState) (item : QItem)
    (rest : List QItem) : BState :=
  let lastChar := item.pfx.getLast?
  let wildcard : Nat :=
    match item.state with
    | .allow => 0
    | .disallow => if lastChar = some '$' then item.wildcard else 1
    | .intermediate => item.wildcard
  let n := bs.transitions.length
  let t0 : List Transition :=
    match lastChar with
    | some '$' => [⟨.matchAny, wildcard⟩]  -- EOW matches nothing further
    | some '*' => [⟨.matchAny, n⟩]         -- wildcard: self-loop on anything
    | _ => [⟨.matchAny, wildcard⟩]         -- ordinary self-loop fallback
  let applicable := extending rules item.pfx
  let f := applicable.foldl
    (visitChild item.pfx lastChar wildcard item.parent n)
    { curr := [], queue := rest, t := t0, transitions := bs.transitions }
  let resolved : State :=
    match item.state with
    | .intermediate => bs.states.getD wildcard .intermediate
    | s => s
  { states := bs.states ++ [resolved]
    transitions := f.transitions ++ [f.t]
    queue := f.queue }

/-- The compilation loop, fuel-indexed.  `compile_queue_empty` below
shows the fuel used by `Cylon.compile` always suffices to drain the
queue, so this computes exactly what the Rust `while` loop computes. -/
def buildLoop (rules : List Rule) : Nat → BState → BState
  | 0, bs => bs
  | fuel + 1, bs =>
    match bs.queue with
    | [] => bs
    | item :: rest => buildLoop rules fuel (stepItem rules bs item rest)

/-- Fuel for `buildLoop`: one unit per queue item ever processed.  The
loop processes at most `1 + Σ |pattern|` items (proved via the measure
`qMeasure` below). -/
def compileFuel (rules : List Rule) : Nat :=
  (rules.map fun r => r.inner.length).sum + 1

/-- The initial compilation state: the two sink states 0 (`Allow`) and
1 (`Disallow`), each self-looping on any character, and the root queue
item `("", 0, 0, State::Intermediate)`. -/
def initBState : BState :=
  { states := [.allow, .disallow]
    transitions := [[⟨.matchAny, 0⟩], [⟨.matchAny, 1⟩]]
    queue := [⟨[], 0, 0, .intermediate⟩] }

/-- `Cylon::compile`. -/
def Cylon.compile (rules : List Rule) : Cylon :=
  let sorted := sortRules rules
  let final := buildLoop sorted (compileFuel sorted) initBState
  { states := final.states, transitions := final.transitions }

/-! ## Order theory for `lexLt` -/

theorem lexLt_nil_right (a : Path) : lexLt a [] = false := by
  cases a <;> rfl

theorem lexLt_cons_iff {x y : Char} {as_ bs : Path} :
    lexLt (x :: as_) (y :: bs) = true ↔ x < y ∨ (x = y ∧ lexLt as_ bs = true) := by
  rcases lt_trichotomy x y with h | h | h
  · simp [lexLt, h]
  · subst h
    simp [lexLt, lt_irrefl]
  · simp [lexLt, h, lt_asymm h, ne_of_gt h]

theorem lexLt_irrefl (a : Path) : lexLt a a = false := by
  induction a with
  | nil => rfl
  | cons x xs ih => simp [lexLt, lt_irrefl, ih]

theorem lexLt_trans : ∀ {a b c : Path},
    lexLt a b = true → lexLt b c = true → lexLt a c = true
  | [], b, c, _, h2 => by
    cases c with
    | nil => exact absurd h2 (by simp [lexLt_nil_right])
    | cons z cs => rfl
  | _ :: _, [], c, h1, _ => absurd h1 (by simp [lexLt_nil_right])
  | _ :: _, _ :: _, [], _, h2 => absurd h2 (by simp [lexLt_nil_right])
  | x :: as_, y :: bs, z :: cs, h1, h2 => by
    rw [lexLt_cons_iff] at h1 h2 ⊢
    rcases h1 with h1 | ⟨rfl, h1⟩
    · rcases h2 with h2 | ⟨rfl, _⟩
      · exact Or.inl (lt_trans h1 h2)
      · exact Or.inl h1
    · rcases h2 with h2 | ⟨rfl, h2⟩
      · exact Or.inl h2
      · exact Or.inr ⟨rfl, lexLt_trans h1 h2⟩

theorem lexLt_asymm {a b : Path} (h : lexLt a b = true) : lexLt b a = false := by
  cases hb : lexLt b a with
  | false => rfl
  | true => exact absurd (lexLt_trans h hb) (by simp [lexLt_irrefl])

theorem eq_of_lexLt_false {a b : Path} (h1 : lexLt a b = false)
    (h2 : lexLt b a = false) : a = b := by
  induction a generalizing b with
  | nil =>
    cases b with
    | nil => rfl
    | cons y bs => exact absurd h1 (by simp [lexLt])
  | cons x as_ ih =>
    cases b with
    | nil => exact absurd h2 (by simp [lexLt])
    | cons y bs =>
      have h1' : ¬(x < y ∨ (x = y ∧ lexLt as_ bs = true)) := by
        rw [← lexLt_cons_iff]; simp [h1]
      have h2' : ¬(y < x ∨ (y = x ∧ lexLt bs as_ = true)) := by
        rw [← lexLt_cons_iff]; simp [h2]
      rcases lt_trichotomy x y with h | h | h
      · exact absurd (Or.inl h) h1'
      · subst h
        have hab : lexLt as_ bs = false := by
          cases hv : lexLt as_ bs with
          | false => rfl
          | true => exact absurd (Or.inr ⟨rfl, hv⟩) h1'
        have hba : lexLt bs as_ = false := by
          cases hv : lexLt bs as_ with
          | false => rfl
          | true => exact absurd (Or.inr ⟨rfl, hv⟩) h2'
        rw [ih hab hba]
      · exact absurd (Or.inl h) h2'

/-- Non-strict lexicographic order: `a` comes no later than `b`. -/
def lexLe (a b : Path) : Bool := !lexLt b a

theorem lexLe_refl (a : Path) : lexLe a a = true := by
  simp [lexLe, lexLt_irrefl]

theorem lexLe_nil (a : Path) : lexLe [] a = true := by
  simp [lexLe, lexLt_nil_right]

theorem lexLe_iff {a b : Path} : lexLe a b = true ↔ lexLt b a = false := by
  simp [lexLe]

theorem lexLe_of_lexLt {a b : Path} (h : lexLt a b = true) : lexLe a b = true :=
  lexLe_iff.mpr (lexLt_asymm h)

theorem lexLe_trans {a b c : Path} (h1 : lexLe a b = true)
    (h2 : lexLe b c = true) : lexLe a c = true := by
  rw [lexLe_iff] at h1 h2 ⊢
  cases hab : lexLt a b with
  | true =>
    cases hca : lexLt c a with
    | false => rfl
    | true => exact absurd (lexLt_trans hca hab) (by simp [h2])
  | false =>
    have : a = b := eq_of_lexLt_false hab h1
    rw [← this] at h2
    exact h2

theorem lexLe_antisymm {a b : Path} (h1 : lexLe a b = true)
    (h2 : lexLe b a = true) : a = b :=
  eq_of_lexLt_false (lexLe_iff.mp h2) (lexLe_iff.mp h1)

theorem lexLt_of_lexLe_of_ne {a b : Path} (h1 : lexLe a b = true)
    (h2 : a ≠ b) : lexLt a b = true := by
  cases hab : lexLt a b with
  | true => rfl
  | false => exact absurd (eq_of_lexLt_false hab (lexLe_iff.mp h1)) h2

theorem lexLe_take {k : Nat} : ∀ {a b : Path}, k ≤ a.length → k ≤ b.length →
    lexLe a b = true → lexLe (a.take k) (b.take k) = true := by
  induction k with
  | zero => intro a b _ _ _; simp [lexLe, lexLt]
  | succ k ih =>
    intro a b ha hb h
    cases a with
    | nil => simp at ha
    | cons x as_ =>
      cases b with
      | nil => simp at hb
      | cons y bs =>
        rw [lexLe_iff] at h ⊢
        have h' := (Bool.not_eq_true _).mpr h
        rw [lexLt_cons_iff] at h'
        push_neg at h'
        simp only [List.take_succ_cons]
        refine (Bool.not_eq_true _).mp ?_
        rw [lexLt_cons_iff]
        push_neg
        refine ⟨h'.1, fun hyx => ?_⟩
        have has : k ≤ as_.length := Nat.succ_le_succ_iff.mp ha
        have hbs : k ≤ bs.length := Nat.succ_le_succ_iff.mp hb
        have := ih has hbs (lexLe_iff.mpr ((Bool.not_eq_true _).mp (h'.2 hyx)))
        rw [lexLe_iff] at this
        simp [this]

/-! ## Lemmas about the stable sort `sortRules` -/

/-- The sorting relation: `a`'s pattern comes no later than `b`'s. -/
def ruleLe (a b : Rule) : Prop := lexLe a.inner b.inner = true

theorem insertRule_decomp (r : Rule) (l : List Rule) :
    ∃ l₁ l₂, l = l₁ ++ l₂ ∧ insertRule r l = l₁ ++ r :: l₂ ∧
      ∀ x ∈ l₁, lexLt x.inner r.inner = true := by
  induction l with
  | nil => exact ⟨[], [], rfl, rfl, by simp⟩
  | cons x xs ih =>
    by_cases h : lexLt x.inner r.inner = true
    · obtain ⟨l₁, l₂, he, hi, hlt⟩ := ih
      refine ⟨x :: l₁, l₂, by simp [he], by simp [insertRule, h, hi], ?_⟩
      intro y hy
      rcases List.mem_cons.mp hy with rfl | hy
      · exact h
      · exact hlt y hy
    · exact ⟨[], x :: xs, rfl, by simp [insertRule, h], by simp⟩

theorem insertRule_perm (r : Rule) (l : List Rule) :
    List.Perm (insertRule r l) (r :: l) := by
  obtain ⟨l₁, l₂, he, hi, _⟩ := insertRule_decomp r l
  rw [hi, he]
  exact List.perm_middle

theorem sortRules_perm (l : List Rule) : List.Perm (sortRules l) l := by
  induction l with
  | nil => rfl
  | cons x xs ih =>
    exact ((insertRule_perm x (sortRules xs)).trans (ih.cons x))

theorem insertRule_sorted {r : Rule} {l : List Rule}
    (h : List.Pairwise ruleLe l) :
    List.Pairwise ruleLe (insertRule r l) := by
  induction l with
  | nil => simp [insertRule, List.pairwise_cons]
  | cons x xs ih =>
    rcases List.pairwise_cons.mp h with ⟨hx, hxs⟩
    by_cases hlt : lexLt x.inner r.inner = true
    · rw [insertRule, if_pos hlt]
      rw [List.pairwise_cons]
      refine ⟨?_, ih hxs⟩
      intro y hy
      rcases List.mem_cons.mp ((insertRule_perm r xs).mem_iff.mp hy) with rfl | hy
      · exact lexLe_of_lexLt hlt
      · exact hx y hy
    · rw [insertRule, if_neg hlt]
      rw [List.pairwise_cons]
      refine ⟨?_, h⟩
      intro y hy
      have hrx : ruleLe r x := by
        unfold ruleLe lexLe
        simp [(Bool.not_eq_true _).mpr (by simpa using hlt)]
      rcases List.mem_cons.mp hy with rfl | hy
      · exact hrx
      · exact lexLe_trans hrx (hx y hy)

theorem sortRules_sorted (l : List Rule) :
    List.Pairwise ruleLe (sortRules l) := by
  induction l with
  | nil => simp [sortRules]
  | cons x xs ih => exact insertRule_sorted ih

/-- Stability of the sort: the subsequence of rules carrying any fixed
pattern `p` is exactly the same, in the same order, before and after
sorting. -/
theorem sortRules_filter (l : List Rule) (p : Path) :
    (sortRules l).filter (fun x => x.inner == p) =
      l.filter (fun x => x.inner == p) := by
  induction l with
  | nil => rfl
  | cons x xs ih =>
    obtain ⟨l₁, l₂, he, hi, hlt⟩ := insertRule_decomp x (sortRules xs)
    rw [sortRules, hi, List.filter_append]
    by_cases hx : x.inner = p
    · have hl₁ : l₁.filter (fun y => y.inner == p) = [] := by
        rw [List.filter_eq_nil_iff]
        intro y hy
        have := hlt y hy
        rw [hx] at this
        simp only [beq_iff_eq]
        intro hyp
        rw [hyp] at this
        exact absurd this (by simp [lexLt_irrefl])
      have : (x :: l₂).filter (fun y => y.inner == p) =
          x :: l₂.filter (fun y => y.inner == p) := by
        simp [List.filter_cons, hx]
      rw [this, hl₁, List.nil_append]
      have hxs : xs.filter (fun y => y.inner == p) =
          l₂.filter (fun y => y.inner == p) := by
        rw [← ih, he, List.filter_append, hl₁, List.nil_append]
      simp [List.filter_cons, hx, hxs]
    · have : (x :: l₂).filter (fun y => y.inner == p) =
          l₂.filter (fun y => y.inner == p) := by
        simp [List.filter_cons, hx]
      rw [this, ← List.filter_append, ← he, ih]
      simp [List.filter_cons, hx]

/-- Two sorted rule lists with identical per-pattern subsequences are
equal. -/
theorem sorted_eq_of_filter_eq : ∀ {s t : List Rule},
    List.Pairwise ruleLe s → List.Pairwise ruleLe t →
    (∀ p, s.filter (fun x => x.inner == p) =
          t.filter (fun x => x.inner == p)) → s = t := by
  intro s
  induction s with
  | nil =>
    intro t _ _ hf
    cases t with
    | nil => rfl
    | cons b t' =>
      have := hf b.inner
      simp [List.filter_cons] at this
  | cons a s' ih =>
    intro t hs ht hf
    cases t with
    | nil =>
      have := hf a.inner
      simp [List.filter_cons] at this
    | cons b t' =>
      have hab : a = b := by
        by_cases hbp : b.inner = a.inner
        · have := hf a.inner
          simp [List.filter_cons, hbp] at this
          exact this.1
        · -- impossible: then a ∈ t' and b ∈ s', sortedness forces equal keys
          have ha : a ∈ b :: t' := by
            have := hf a.inner
            have hmem : a ∈ (b :: t').filter (fun x => x.inner == a.inner) := by
              rw [← this]; simp [List.filter_cons]
            exact List.mem_of_mem_filter hmem
          have hb : b ∈ a :: s' := by
            have := hf b.inner
            have hmem : b ∈ (a :: s').filter (fun x => x.inner == b.inner) := by
              rw [this]; simp [List.filter_cons]
            exact List.mem_of_mem_filter hmem
          have hab' : ruleLe a b := by
            rcases List.mem_cons.mp hb with rfl | hb
            · exact lexLe_refl _
            · exact (List.pairwise_cons.mp hs).1 b hb
          have hba : ruleLe b a := by
            rcases List.mem_cons.mp ha with rfl | ha
            · exact lexLe_refl _
            · exact (List.pairwise_cons.mp ht).1 a ha
          exact absurd (lexLe_antisymm hba hab') hbp
      subst hab
      have htail : ∀ p, s'.filter (fun x => x.inner == p) =
          t'.filter (fun x => x.inner == p) := by
        intro p
        have := hf p
        by_cases hap : a.inner = p
        · simpa [List.filter_cons, hap] using this
        · simpa [List.filter_cons, hap] using this
      exact congrArg (a :: ·)
        (ih (List.pairwise_cons.mp hs).2 (List.pairwise_cons.mp ht).2 htail)

/-! ## Termination of the compilation loop

The Rust `while !queue.is_empty()` loop terminates because the measure
`qMeasure` (one unit per pending prefix plus one unit per remaining
character of every rule strictly extending a pending prefix) strictly
decreases at every iteration.  `compileFuel` bounds the initial measure,
so the fuel used by `Cylon.compile` always drains the queue. -/

/-- Remaining work below one pending prefix. -/
def pweight (rules : List Rule) (P : Path) : Nat :=
  ((extending rules P).map fun r => r.inner.length - P.length).sum

/-- Work charged to one queue item. -/
def itemWeight (rules : List Rule) (it : QItem) : Nat :=
  1 + pweight rules it.pfx

/-- The loop measure: total work pending in the queue. -/
def qMeasure (rules : List Rule) (q : List QItem) : Nat :=
  (q.map (itemWeight rules)).sum

/-- The distinct child prefixes discovered by the child-visiting fold,
in order (consecutive runs of rules sharing the same first
`k` characters collapse onto the first of the run). -/
def childList (k : Nat) : Path → List Path → List Path
  | _, [] => []
  | curr, p :: ps =>
    if curr = p.take k then childList k curr ps
    else p.take k :: childList k (p.take k) ps

theorem childList_cons (k : Nat) (curr p : Path) (ps : List Path) :
    childList k curr (p :: ps) =
      if curr = p.take k then childList k curr ps
      else p.take k :: childList k (p.take k) ps := rfl

theorem visitChild_skip (pfx : Path) (lastChar : Option Char)
    (w par n : Nat) (acc : FoldSt) (r : Rule)
    (hc : acc.curr = r.inner.take (pfx.length + 1)) :
    visitChild pfx lastChar w par n acc r = acc := by
  simp [visitChild, hc]

theorem visitChild_queue_pfx (pfx : Path) (lastChar : Option Char)
    (w par n : Nat) (acc : FoldSt) (r : Rule)
    (hc : ¬acc.curr = r.inner.take (pfx.length + 1)) :
    ((visitChild pfx lastChar w par n acc r).queue).map QItem.pfx =
      acc.queue.map QItem.pfx ++ [r.inner.take (pfx.length + 1)] := by
  simp [visitChild, hc]

theorem visitChild_curr (pfx : Path) (lastChar : Option Char)
    (w par n : Nat) (acc : FoldSt) (r : Rule)
    (hc : ¬acc.curr = r.inner.take (pfx.length + 1)) :
    (visitChild pfx lastChar w par n acc r).curr =
      r.inner.take (pfx.length + 1) := by
  simp [visitChild, hc]

/-- The queue after the child-visiting fold: the original queue followed
by one new item per discovered child prefix. -/
theorem foldl_visitChild_queue (pfx : Path) (lastChar : Option Char)
    (w par n : Nat) :
    ∀ (l : List Rule) (acc : FoldSt),
      ((l.foldl (visitChild pfx lastChar w par n) acc).queue).map QItem.pfx =
        acc.queue.map QItem.pfx ++
          childList (pfx.length + 1) acc.curr (l.map Rule.inner) := by
  intro l
  induction l with
  | nil => intro acc; simp [childList]
  | cons r rs ih =>
    intro acc
    rw [List.foldl_cons, List.map_cons, childList_cons]
    by_cases hc : acc.curr = r.inner.take (pfx.length + 1)
    · rw [visitChild_skip pfx lastChar w par n acc r hc, ih acc, if_pos hc]
    · rw [if_neg hc]
      rw [ih (visitChild pfx lastChar w par n acc r)]
      rw [visitChild_queue_pfx pfx lastChar w par n acc r hc,
        visitChild_curr pfx lastChar w par n acc r hc]
      simp

theorem childList_length_le (k : Nat) :
    ∀ (l : List Path) (curr : Path), (childList k curr l).length ≤ l.length := by
  intro l
  induction l with
  | nil => intro curr; simp [childList]
  | cons p ps ih =>
    intro curr
    rw [childList_cons]
    by_cases hc : curr = p.take k
    · rw [if_pos hc]
      exact le_trans (ih curr) (Nat.le_succ _)
    · rw [if_neg hc]
      simpa using ih (p.take k)

theorem childList_mem (k : Nat) :
    ∀ {l : List Path} {curr C : Path}, C ∈ childList k curr l →
      ∃ p ∈ l, C = p.take k := by
  intro l
  induction l with
  | nil => intro curr C hC; simp [childList] at hC
  | cons p ps ih =>
    intro curr C hC
    rw [childList_cons] at hC
    by_cases hc : curr = p.take k
    · rw [if_pos hc] at hC
      obtain ⟨q, hq, hq'⟩ := ih hC
      exact ⟨q, List.mem_cons_of_mem _ hq, hq'⟩
    · rw [if_neg hc] at hC
      rcases List.mem_cons.mp hC with rfl | hC
      · exact ⟨p, List.mem_cons_self _ _, rfl⟩
      · obtain ⟨q, hq, hq'⟩ := ih hC
        exact ⟨q, List.mem_cons_of_mem _ hq, hq'⟩

theorem lexLt_of_lexLe_of_lexLt {a b c : Path} (h1 : lexLe a b = true)
    (h2 : lexLt b c = true) : lexLt a c = true := by
  cases hab : lexLt a b with
  | true => exact lexLt_trans hab h2
  | false => rw [eq_of_lexLt_false hab (lexLe_iff.mp h1)]; exact h2

/-- Along the fold, the emitted child prefixes form a strictly
increasing chain above the running `curr`. -/
theorem childList_chain (k : Nat) :
    ∀ (l : List Path) (curr : Path),
      List.Pairwise (fun a b => lexLe (a.take k) (b.take k) = true) l →
      (∀ p ∈ l, lexLe curr (p.take k) = true) →
      (∀ C ∈ childList k curr l, lexLe curr C = true ∧ C ≠ curr) ∧
        List.Pairwise (fun a b => lexLt a b = true) (childList k curr l) := by
  intro l
  induction l with
  | nil => intro curr _ _; simp [childList]
  | cons p ps ih =>
    intro curr hpair hcurr
    rcases List.pairwise_cons.mp hpair with ⟨hhead, htail⟩
    rw [childList_cons]
    by_cases hc : curr = p.take k
    · rw [if_pos hc]
      refine ih curr htail fun q hq => ?_
      rw [hc]
      exact hhead q hq
    · rw [if_neg hc]
      obtain ⟨hmem, hpair'⟩ := ih (p.take k) htail (fun q hq => hhead q hq)
      have hcp : lexLe curr (p.take k) = true := hcurr p (List.mem_cons_self _ _)
      constructor
      · intro C hC
        rcases List.mem_cons.mp hC with rfl | hC
        · exact ⟨hcp, fun h => hc h.symm⟩
        · obtain ⟨hle, hne⟩ := hmem C hC
          have hlt : lexLt (p.take k) C = true :=
            lexLt_of_lexLe_of_ne hle (Ne.symm hne)
          have hltc : lexLt curr C = true := lexLt_of_lexLe_of_lexLt hcp hlt
          refine ⟨lexLe_trans hcp hle, ?_⟩
          intro h
          rw [h] at hltc
          simp [lexLt_irrefl] at hltc
      · rw [List.pairwise_cons]
        refine ⟨?_, hpair'⟩
        intro C hC
        obtain ⟨hle, hne⟩ := hmem C hC
        exact lexLt_of_lexLe_of_ne hle (Ne.symm hne)

theorem childList_nodup {k : Nat} {l : List Path} {curr : Path}
    (hpair : List.Pairwise (fun a b => lexLe (a.take k) (b.take k) = true) l)
    (hcurr : ∀ p ∈ l, lexLe curr (p.take k) = true) :
    (childList k curr l).Nodup := by
  refine ((childList_chain k l curr hpair hcurr).2).imp ?_
  intro a b hab
  intro h
  rw [h] at hab
  simp [lexLt_irrefl] at hab

/-! ### Sum bookkeeping -/

theorem sum_map_one_add {α : Type} (f : α → Nat) (l : List α) :
    (l.map fun a => 1 + f a).sum = l.length + (l.map f).sum := by
  induction l with
  | nil => rfl
  | cons a l ih => simp [ih]; omega

theorem sum_map_filter_not_add {α : Type} (g : α → Nat) (q : α → Bool)
    (l : List α) :
    ((l.filter q).map g).sum + ((l.filter fun a => !q a).map g).sum =
      (l.map g).sum := by
  induction l with
  | nil => rfl
  | cons a l ih =>
    cases hq : q a <;> simp [List.filter_cons, hq] <;> omega

/-- Each element belongs to at most one class, so summing class weights
over distinct class representatives never exceeds the total weight. -/
theorem sum_classes_le {α β : Type} (g : β → Nat) (q : α → β → Bool) :
    ∀ (S : List α) (l : List β), S.Nodup →
      (∀ C₁ ∈ S, ∀ C₂ ∈ S, ∀ p, q C₁ p = true → q C₂ p = true → C₁ = C₂) →
      (S.map fun C => ((l.filter (q C)).map g).sum).sum ≤ (l.map g).sum := by
  intro S
  induction S with
  | nil => intro l _ _; simp
  | cons C S' ih =>
    intro l hnd hq
    rw [List.map_cons, List.sum_cons]
    have hsub : ∀ C' ∈ S',
        (l.filter fun p => !q C p).filter (q C') = l.filter (q C') := by
      intro C' hC'
      rw [List.filter_filter]
      apply List.filter_congr
      intro p _
      cases hqp : q C' p
      · simp
      · have hqc : q C p = false := by
          cases hqc : q C p
          · rfl
          · have : C = C' := hq C (List.mem_cons_self _ _) C'
              (List.mem_cons_of_mem _ hC') p hqc hqp
            rw [this] at hnd
            exact absurd (List.nodup_cons.mp hnd).1 (by simp [hC'])
        simp [hqc]
    have ihle := ih (l.filter fun p => !q C p) (List.nodup_cons.mp hnd).2
      (fun C₁ h₁ C₂ h₂ p => hq C₁ (List.mem_cons_of_mem _ h₁) C₂
        (List.mem_cons_of_mem _ h₂) p)
    rw [List.map_congr_left (fun C' hC' => by rw [hsub C' hC'])] at ihle
    have := sum_map_filter_not_add g (q C) l
    omega

/-! ### The key decrease inequality -/

theorem mem_extending {rules : List Rule} {P : Path} {r : Rule} :
    r ∈ extending rules P ↔ r ∈ rules ∧ P <+: r.inner ∧ r.inner ≠ P := by
  simp [extending, List.mem_filter, List.isPrefixOf_iff_prefix, and_assoc]

theorem length_lt_of_extending {P p : Path} (hp : P <+: p) (hne : p ≠ P) :
    P.length + 1 ≤ p.length := by
  rcases Nat.lt_or_ge P.length p.length with h | h
  · omega
  · have : P.length = p.length := le_antisymm hp.length_le h
    exact absurd (hp.eq_of_length this).symm hne

/-- The heart of termination: the children discovered while expanding
prefix `P` carry, together with their own queue units, no more weight
than `P` itself carried. -/
theorem childList_weight_le (rules : List Rule)
    (hs : List.Pairwise ruleLe rules) (P : Path) :
    ((childList (P.length + 1) [] ((extending rules P).map Rule.inner)).map
      fun C => 1 + pweight rules C).sum ≤ pweight rules P := by
  set k := P.length + 1 with hk
  set l := extending rules P with hl
  set lp := l.map Rule.inner with hlp
  set S := childList k [] lp with hS
  -- facts about members of lp
  have hmemlp : ∀ p ∈ lp, P <+: p ∧ p ≠ P ∧ k ≤ p.length := by
    intro p hp
    rw [hlp] at hp
    obtain ⟨r, hr, rfl⟩ := List.mem_map.mp hp
    obtain ⟨_, hpre, hne⟩ := mem_extending.mp hr
    exact ⟨hpre, hne, length_lt_of_extending hpre hne⟩
  -- facts about members of S
  have hmemS : ∀ C ∈ S, C.length = k ∧ P <+: C ∧ C ≠ P := by
    intro C hC
    obtain ⟨p, hp, rfl⟩ := childList_mem k hC
    obtain ⟨hpre, _, hlen⟩ := hmemlp p hp
    refine ⟨by simp [List.length_take]; omega, ?_, ?_⟩
    · exact List.prefix_take_iff.mpr ⟨hpre, by omega⟩
    · intro h
      have := congrArg List.length h
      simp [List.length_take] at this
      omega
  -- S has no duplicates
  have hpairlp : List.Pairwise (fun a b => lexLe (a.take k) (b.take k) = true) lp := by
    have h1 : List.Pairwise ruleLe l := hs.filter _
    have h2 : List.Pairwise (fun a b => lexLe a b = true) lp := by
      rw [hlp, List.pairwise_map]
      exact h1
    refine h2.imp_of_mem ?_
    intro a b ha hb hab
    exact lexLe_take (hmemlp a ha).2.2 (hmemlp b hb).2.2 hab
  have hnodS : S.Nodup :=
    childList_nodup hpairlp (fun p _ => lexLe_nil _)
  -- rewrite pweight of each child in terms of a filter of l
  have hclass : ∀ C ∈ S, pweight rules C =
      ((l.filter fun r => C.isPrefixOf r.inner && decide (r.inner ≠ C)).map
        fun r => r.inner.length - k).sum := by
    intro C hC
    obtain ⟨hCk, hCpre, _⟩ := hmemS C hC
    have hfilter : extending rules C =
        l.filter fun r => C.isPrefixOf r.inner && decide (r.inner ≠ C) := by
      rw [hl, extending, extending, List.filter_filter]
      apply List.filter_congr
      intro r _
      cases hcr : (C.isPrefixOf r.inner && decide (r.inner ≠ C))
      · simp
      · have h1 : C <+: r.inner ∧ r.inner ≠ C := by
          have := hcr
          simp only [Bool.and_eq_true, decide_eq_true_eq,
            List.isPrefixOf_iff_prefix] at this
          exact this
        have h2 : P <+: r.inner := hCpre.trans h1.1
        have h3 : r.inner ≠ P := by
          intro h
          have hlen := h1.1.length_le
          rw [h, hCk] at hlen
          omega
        simp [h2, h3, List.isPrefixOf_iff_prefix]
    rw [pweight, hfilter, hCk]
  -- total class weight is bounded by the weight of l
  have hclasses :
      (S.map fun C => pweight rules C).sum ≤
        (l.map fun r => r.inner.length - k).sum := by
    rw [List.map_congr_left hclass]
    apply sum_classes_le
    · exact hnodS
    · intro C₁ h₁ C₂ h₂ r hq₁ hq₂
      simp only [Bool.and_eq_true, List.isPrefixOf_iff_prefix] at hq₁ hq₂
      have e₁ := (hmemS C₁ h₁).1
      have e₂ := (hmemS C₂ h₂).1
      exact (List.prefix_of_prefix_length_le hq₁.1 hq₂.1 (by omega)).eq_of_length
        (by omega)
  -- assemble
  have hsplit : ((S.map fun C => 1 + pweight rules C).sum : Nat) =
      S.length + (S.map fun C => pweight rules C).sum :=
    sum_map_one_add _ _
  have hlen : S.length ≤ lp.length := childList_length_le k lp []
  have hfinal : pweight rules P =
      l.length + (l.map fun r => r.inner.length - k).sum := by
    rw [pweight, ← hl]
    have : (l.map fun r => r.inner.length - P.length) =
        l.map fun r => 1 + (r.inner.length - k) := by
      apply List.map_congr_left
      intro r hr
      have : k ≤ r.inner.length := by
        refine (hmemlp r.inner ?_).2.2
        rw [hlp]
        exact List.mem_map.mpr ⟨r, hr, rfl⟩
      omega
    rw [this, sum_map_one_add]
  have hlplen : lp.length = l.length := by rw [hlp, List.length_map]
  omega

/-! ### Fuel sufficiency -/

theorem stepItem_queue_pfx (rules : List Rule) (bs : BState) (item : QItem)
    (rest : List QItem) :
    ((stepItem rules bs item rest).queue).map QItem.pfx =
      rest.map QItem.pfx ++
        childList (item.pfx.length + 1) []
          ((extending rules item.pfx).map Rule.inner) := by
  rw [stepItem]
  rw [foldl_visitChild_queue]

theorem qMeasure_pfx (rules : List Rule) (q : List QItem) :
    qMeasure rules q =
      ((q.map QItem.pfx).map fun P => 1 + pweight rules P).sum := by
  rw [qMeasure, List.map_map]
  rfl

theorem qMeasure_step (rules : List Rule) (hs : List.Pairwise ruleLe rules)
    (bs : BState) (item : QItem) (rest : List QItem) :
    qMeasure rules (stepItem rules bs item rest).queue + 1 ≤
      qMeasure rules (item :: rest) := by
  rw [qMeasure_pfx, stepItem_queue_pfx, List.map_append, List.sum_append]
  have hchild := childList_weight_le rules hs item.pfx
  have : qMeasure rules (item :: rest) =
      (1 + pweight rules item.pfx) +
        ((rest.map QItem.pfx).map fun P => 1 + pweight rules P).sum := by
    rw [qMeasure_pfx]
    simp
  omega

theorem buildLoop_of_empty (rules : List Rule) (bs : BState)
    (h : bs.queue = []) : ∀ fuel, buildLoop rules fuel bs = bs := by
  intro fuel
  cases fuel with
  | zero => rfl
  | succ fuel => rw [buildLoop, h]

theorem buildLoop_queue_empty (rules : List Rule)
    (hs : List.Pairwise ruleLe rules) :
    ∀ (fuel : Nat) (bs : BState), qMeasure rules bs.queue ≤ fuel →
      (buildLoop rules fuel bs).queue = [] := by
  intro fuel
  induction fuel with
  | zero =>
    intro bs h
    cases hq : bs.queue with
    | nil => rw [buildLoop]; exact hq
    | cons item rest =>
      rw [hq, qMeasure, List.map_cons, List.sum_cons, itemWeight] at h
      omega
  | succ fuel ih =>
    intro bs h
    cases hq : bs.queue with
    | nil => rw [buildLoop, hq]; exact hq
    | cons item rest =>
      rw [buildLoop, hq]
      apply ih
      have := qMeasure_step rules hs bs item rest
      rw [hq] at h
      omega

theorem buildLoop_fuel_mono (rules : List Rule)
    (hs : List.Pairwise ruleLe rules) :
    ∀ (f₁ f₂ : Nat) (bs : BState), qMeasure rules bs.queue ≤ f₁ → f₁ ≤ f₂ →
      buildLoop rules f₁ bs = buildLoop rules f₂ bs := by
  intro f₁
  induction f₁ with
  | zero =>
    intro f₂ bs h _
    cases hq : bs.queue with
    | nil => rw [buildLoop_of_empty rules bs hq, buildLoop_of_empty rules bs hq]
    | cons item rest =>
      rw [hq, qMeasure, List.map_cons, List.sum_cons, itemWeight] at h
      omega
  | succ f₁ ih =>
    intro f₂ bs h hle
    cases hq : bs.queue with
    | nil => rw [buildLoop_of_empty rules bs hq, buildLoop_of_empty rules bs hq]
    | cons item rest =>
      cases f₂ with
      | zero => omega
      | succ f₂ =>
        rw [buildLoop, buildLoop, hq]
        apply ih
        · have := qMeasure_step rules hs bs item rest
          rw [hq] at h
          omega
        · omega

/-- The initial measure is bounded by the fuel `Cylon.compile` supplies. -/
theorem qMeasure_init (rules : List Rule) :
    qMeasure rules initBState.queue ≤ compileFuel rules := by
  have hsub : ((extending rules []).map fun r => r.inner.length).sum ≤
      (rules.map fun r => r.inner.length).sum := by
    have h1 : (extending rules []).Sublist rules := List.filter_sublist _
    exact (h1.map _).sum_le_sum (by intro a _; omega)
  rw [initBState, qMeasure, compileFuel]
  simp [itemWeight, pweight]
  omega

/-- The queue is empty when `Cylon.compile`'s loop stops: the fuel
supplied always suffices, i.e. the Rust loop terminates and the
fuel-indexed model computes its exact result. -/
theorem compile_queue_empty (rules : List Rule) :
    (buildLoop (sortRules rules) (compileFuel (sortRules rules))
      initBState).queue = [] :=
  buildLoop_queue_empty (sortRules rules) (sortRules_sorted rules) _ _
    (qMeasure_init (sortRules rules))

/-! ## Structural invariants of the compilation state -/

theorem getD_eq_getElem {α : Type} (l : List α) (i : Nat) (d : α)
    (h : i < l.length) : l.getD i d = l[i] := by
  rw [List.getD_eq_getElem?_getD, List.getElem?_eq_getElem h, Option.getD_some]

theorem getD_mem {α : Type} (l : List α) (i : Nat) (d : α)
    (h : i < l.length) : l.getD i d ∈ l := by
  rw [getD_eq_getElem l i d h]
  exact List.getElem_mem h

/-- The classification given to a freshly discovered child prefix. -/
def childState (pfx : Path) (r : Rule) : State :=
  match r, (r.inner.take (pfx.length + 1) == r.inner) with
  | .allow _, true => .allow
  | .disallow _, true => .disallow
  | _, _ => .intermediate

/-- The queue entry pushed for a freshly discovered child prefix. -/
def childItem (pfx : Path) (w n : Nat) (r : Rule) : QItem :=
  ⟨r.inner.take (pfx.length + 1), w, n, childState pfx r⟩

/-- The transition pushed for a freshly discovered child prefix, when
the queue held `qlen` items before the push. -/
def childTr (pfx : Path) (n qlen : Nat) (r : Rule) : Transition :=
  ⟨edgeOf ((r.inner.take (pfx.length + 1)).getLast?.getD ' '), n + (qlen + 1)⟩

theorem visitChild_emit (pfx : Path) (lastChar : Option Char) (w par n : Nat)
    (acc : FoldSt) (r : Rule)
    (hc : ¬acc.curr = r.inner.take (pfx.length + 1)) :
    visitChild pfx lastChar w par n acc r =
      { curr := r.inner.take (pfx.length + 1)
        queue := acc.queue ++ [childItem pfx w n r]
        t := acc.t ++ [childTr pfx n acc.queue.length r]
        transitions :=
          if lastChar = some '*' then
            acc.transitions.set par
              ((acc.transitions.getD par []) ++ [childTr pfx n acc.queue.length r])
          else acc.transitions } := by
  simp [visitChild, hc, childItem, childTr, childState]

/-- Summary of one whole child-visiting fold: the `transitions` vector
keeps its length, every entry of it only gains appended transitions
whose targets stay below `n`+(final queue length), the queue gains items
whose wildcard is `w` and whose parent is `n`, and `t` likewise only
gains bounded transitions. -/
theorem foldl_visitChild_spec (pfx : Path) (lastChar : Option Char)
    (w par n : Nat) :
    ∀ (l : List Rule) (acc : FoldSt),
      (l.foldl (visitChild pfx lastChar w par n) acc).transitions.length =
          acc.transitions.length ∧
      (∃ new, (l.foldl (visitChild pfx lastChar w par n) acc).queue =
          acc.queue ++ new ∧
          ∀ it ∈ new, it.wildcard = w ∧ it.parent = n) ∧
      (∃ ext, (l.foldl (visitChild pfx lastChar w par n) acc).t = acc.t ++ ext ∧
          ∀ tr ∈ ext, tr.next ≤
            n + (l.foldl (visitChild pfx lastChar w par n) acc).queue.length) ∧
      (∀ i, ∃ ext,
          (l.foldl (visitChild pfx lastChar w par n) acc).transitions.getD i [] =
            acc.transitions.getD i [] ++ ext ∧
          ∀ tr ∈ ext, tr.next ≤
            n + (l.foldl (visitChild pfx lastChar w par n) acc).queue.length) := by
  intro l
  induction l with
  | nil =>
    intro acc
    exact ⟨rfl, ⟨[], by simp, by simp⟩, ⟨[], by simp, by simp⟩,
      fun i => ⟨[], by simp, by simp⟩⟩
  | cons r rs ih =>
    intro acc
    rw [List.foldl_cons]
    by_cases hc : acc.curr = r.inner.take (pfx.length + 1)
    · rw [visitChild_skip pfx lastChar w par n acc r hc]
      exact ih acc
    · rw [visitChild_emit pfx lastChar w par n acc r hc]
      obtain ⟨h1, ⟨new, hq, hnew⟩, ⟨ext, ht, hext⟩, h4⟩ := ih
        { curr := r.inner.take (pfx.length + 1)
          queue := acc.queue ++ [childItem pfx w n r]
          t := acc.t ++ [childTr pfx n acc.queue.length r]
          transitions :=
            if lastChar = some '*' then
              acc.transitions.set par
                ((acc.transitions.getD par []) ++
                  [childTr pfx n acc.queue.length r])
            else acc.transitions }
      simp only at h1 hq hnew ht hext h4
      have hqlen : acc.queue.length + 1 ≤
          (rs.foldl (visitChild pfx lastChar w par n)
            { curr := r.inner.take (pfx.length + 1)
              queue := acc.queue ++ [childItem pfx w n r]
              t := acc.t ++ [childTr pfx n acc.queue.length r]
              transitions :=
                if lastChar = some '*' then
                  acc.transitions.set par
                    ((acc.transitions.getD par []) ++
                      [childTr pfx n acc.queue.length r])
                else acc.transitions }).queue.length := by
        rw [hq]
        simp
      refine ⟨?_, ?_, ?_, ?_⟩
      · rw [h1]
        split <;> simp [List.length_set]
      · refine ⟨childItem pfx w n r :: new, ?_, ?_⟩
        · rw [hq]; simp
        · intro it hit
          rcases List.mem_cons.mp hit with rfl | hit
          · exact ⟨rfl, rfl⟩
          · exact hnew it hit
      · refine ⟨childTr pfx n acc.queue.length r :: ext, ?_, ?_⟩
        · rw [ht]; simp
        · intro tr htr
          rcases List.mem_cons.mp htr with rfl | htr
          · have hnext : (childTr pfx n acc.queue.length r).next =
                n + (acc.queue.length + 1) := rfl
            omega
          · exact hext tr htr
      · intro i
        obtain ⟨ext2, hext2, hb2⟩ := h4 i
        have hdec : ∃ ext1,
            ((if lastChar = some '*' then
                acc.transitions.set par
                  ((acc.transitions.getD par []) ++
                    [childTr pfx n acc.queue.length r])
              else acc.transitions).getD i []) =
              acc.transitions.getD i [] ++ ext1 ∧
            ∀ tr ∈ ext1, tr.next = n + (acc.queue.length + 1) := by
          by_cases hstar : lastChar = some '*'
          · rw [if_pos hstar]
            by_cases hpar : par = i
            · subst hpar
              by_cases hlt : par < acc.transitions.length
              · refine ⟨[childTr pfx n acc.queue.length r], ?_, ?_⟩
                · rw [List.getD_eq_getElem?_getD, List.getElem?_set_self hlt,
                    Option.getD_some]
                · intro tr htr
                  rcases List.mem_cons.mp htr with rfl | htr
                  · rfl
                  · simp at htr
              · refine ⟨[], ?_, by simp⟩
                rw [List.getD_eq_getElem?_getD, List.getD_eq_getElem?_getD,
                  List.getElem?_set]
                have h2' : acc.transitions[par]? = none :=
                  List.getElem?_eq_none (by omega)
                simp [h2', hlt]
            · refine ⟨[], ?_, by simp⟩
              rw [List.getD_eq_getElem?_getD, List.getD_eq_getElem?_getD,
                List.getElem?_set_ne hpar]
              simp
          · rw [if_neg hstar]
            exact ⟨[], by simp, by simp⟩
        obtain ⟨ext1, hdec1, hdec2⟩ := hdec
        rw [hdec1] at hext2
        refine ⟨ext1 ++ ext2, by rw [hext2]; simp, ?_⟩
        intro tr htr
        rcases List.mem_append.mp htr with htr | htr
        · have := hdec2 tr htr
          omega
        · exact hb2 tr htr

/-- The invariant maintained at the top of every iteration of the
compilation loop: `states` and `transitions` run in lockstep, every
transition list starts with a match-any edge, every recorded target
stays below the number of states that will exist once the queue is
drained, every recorded state is `Allow`/`Disallow`, and all queue
items refer to existing states. -/
structure WF (bs : BState) : Prop where
  len_eq : bs.states.length = bs.transitions.length
  head_any : ∀ t ∈ bs.transitions, ∃ v rest, t = ⟨Edge.matchAny, v⟩ :: rest
  targets : ∀ t ∈ bs.transitions, ∀ tr ∈ t,
    tr.next < bs.states.length + bs.queue.length
  states_ad : ∀ s ∈ bs.states, s = State.allow ∨ s = State.disallow
  q_wild : ∀ it ∈ bs.queue, it.wildcard < bs.states.length
  q_par : ∀ it ∈ bs.queue, it.parent < bs.transitions.length
  two_le : 2 ≤ bs.states.length

/-- The reassigned `wildcard_state` of one loop iteration. -/
def stepWildcard (item : QItem) : Nat :=
  match item.state with
  | .allow => 0
  | .disallow => if item.pfx.getLast? = some '$' then item.wildcard else 1
  | .intermediate => item.wildcard

/-- The initial transition list `t` of one loop iteration. -/
def stepT0 (bs : BState) (item : QItem) : List Transition :=
  match item.pfx.getLast? with
  | some '$' => [⟨.matchAny, stepWildcard item⟩]
  | some '*' => [⟨.matchAny, bs.transitions.length⟩]
  | _ => [⟨.matchAny, stepWildcard item⟩]

/-- The result of the child-visiting fold of one loop iteration. -/
def stepFold (rules : List Rule) (bs : BState) (item : QItem)
    (rest : List QItem) : FoldSt :=
  (extending rules item.pfx).foldl
    (visitChild item.pfx item.pfx.getLast? (stepWildcard item) item.parent
      bs.transitions.length)
    { curr := [], queue := rest, t := stepT0 bs item,
      transitions := bs.transitions }

/-- The classification pushed for the processed item. -/
def stepResolved (bs : BState) (item : QItem) : State :=
  match item.state with
  | .intermediate => bs.states.getD (stepWildcard item) .intermediate
  | s => s

theorem stepItem_eq (rules : List Rule) (bs : BState) (item : QItem)
    (rest : List QItem) :
    stepItem rules bs item rest =
      { states := bs.states ++ [stepResolved bs item]
        transitions := (stepFold rules bs item rest).transitions ++
          [(stepFold rules bs item rest).t]
        queue := (stepFold rules bs item rest).queue } := rfl

theorem stepWildcard_cases (item : QItem) :
    stepWildcard item = 0 ∨ stepWildcard item = 1 ∨
      stepWildcard item = item.wildcard := by
  rw [stepWildcard]
  split
  · exact Or.inl rfl
  · split
    · exact Or.inr (Or.inr rfl)
    · exact Or.inr (Or.inl rfl)
  · exact Or.inr (Or.inr rfl)

theorem stepWildcard_lt (bs : BState) (item : QItem) (hWF : WF bs)
    (hit : item ∈ bs.queue) : stepWildcard item < bs.states.length := by
  have h2 := hWF.two_le
  have hw := hWF.q_wild item hit
  rcases stepWildcard_cases item with h | h | h <;> rw [h] <;> omega

theorem stepT0_shape (bs : BState) (item : QItem) :
    stepT0 bs item = [⟨Edge.matchAny, stepWildcard item⟩] ∨
      stepT0 bs item = [⟨Edge.matchAny, bs.transitions.length⟩] := by
  rw [stepT0]
  split
  · exact Or.inl rfl
  · exact Or.inr rfl
  · exact Or.inl rfl

theorem stepFold_spec (rules : List Rule) (bs : BState) (item : QItem)
    (rest : List QItem) :
    (stepFold rules bs item rest).transitions.length =
        bs.transitions.length ∧
    (∃ new, (stepFold rules bs item rest).queue = rest ++ new ∧
        ∀ it ∈ new, it.wildcard = stepWildcard item ∧
          it.parent = bs.transitions.length) ∧
    (∃ ext, (stepFold rules bs item rest).t = stepT0 bs item ++ ext ∧
        ∀ tr ∈ ext, tr.next ≤ bs.transitions.length +
          (stepFold rules bs item rest).queue.length) ∧
    (∀ i, ∃ ext, (stepFold rules bs item rest).transitions.getD i [] =
        bs.transitions.getD i [] ++ ext ∧
        ∀ tr ∈ ext, tr.next ≤ bs.transitions.length +
          (stepFold rules bs item rest).queue.length) :=
  foldl_visitChild_spec item.pfx item.pfx.getLast? (stepWildcard item)
    item.parent bs.transitions.length (extending rules item.pfx)
    { curr := [], queue := rest, t := stepT0 bs item,
      transitions := bs.transitions }

theorem stepItem_WF (rules : List Rule) (bs : BState) (item : QItem)
    (rest : List QItem) (hWF : WF bs) (hq : bs.queue = item :: rest) :
    WF (stepItem rules bs item rest) := by
  have hit : item ∈ bs.queue := by rw [hq]; exact List.mem_cons_self _ _
  have hwlt : stepWildcard item < bs.states.length :=
    stepWildcard_lt bs item hWF hit
  have hlen := hWF.len_eq
  obtain ⟨hflen, ⟨new, hfq, hfnew⟩, ⟨ext, hft, hfext⟩, hfi⟩ :=
    stepFold_spec rules bs item rest
  have hqlen : rest.length ≤ (stepFold rules bs item rest).queue.length := by
    rw [hfq]; simp
  have hbslen : bs.queue.length = rest.length + 1 := by rw [hq]; rfl
  rw [stepItem_eq]
  constructor
  · simp [hflen, hlen]
  · intro t ht
    simp only [List.mem_append, List.mem_singleton] at ht
    rcases ht with ht | rfl
    · obtain ⟨i, hilt, hti⟩ := List.mem_iff_getElem.mp ht
      obtain ⟨exti, hexti, _⟩ := hfi i
      have hilt' : i < bs.transitions.length := by rw [← hflen]; exact hilt
      have hold := getD_mem bs.transitions i [] hilt'
      obtain ⟨v, rest', hshape⟩ := hWF.head_any _ hold
      have : t = (⟨Edge.matchAny, v⟩ :: rest') ++ exti := by
        rw [← hti, ← getD_eq_getElem _ _ [] hilt, hexti, hshape]
      exact ⟨v, rest' ++ exti, by rw [this]; simp⟩
    · obtain ⟨exti, hexti, _⟩ : ∃ e, (stepFold rules bs item rest).t =
          stepT0 bs item ++ e ∧ ∀ tr ∈ e, tr.next ≤ bs.transitions.length +
            (stepFold rules bs item rest).queue.length := ⟨ext, hft, hfext⟩
      rcases stepT0_shape bs item with hshape | hshape
      · exact ⟨stepWildcard item, exti, by rw [hexti, hshape]; rfl⟩
      · exact ⟨bs.transitions.length, exti, by rw [hexti, hshape]; rfl⟩
  · intro t ht tr htr
    simp only [List.length_append, List.length_cons, List.length_nil]
    simp only [List.mem_append, List.mem_singleton] at ht
    rcases ht with ht | rfl
    · obtain ⟨i, hilt, hti⟩ := List.mem_iff_getElem.mp ht
      obtain ⟨exti, hexti, hbi⟩ := hfi i
      have hilt' : i < bs.transitions.length := by rw [← hflen]; exact hilt
      have ht' : t = bs.transitions.getD i [] ++ exti := by
        rw [← hti, ← getD_eq_getElem _ _ [] hilt, hexti]
      rw [ht'] at htr
      rcases List.mem_append.mp htr with htr | htr
      · have := hWF.targets _ (getD_mem bs.transitions i [] hilt') tr htr
        omega
      · have := hbi tr htr
        omega
    · rw [hft] at htr
      rcases List.mem_append.mp htr with htr | htr
      · rcases stepT0_shape bs item with hshape | hshape <;> rw [hshape] at htr <;>
          simp only [List.mem_singleton] at htr <;> subst htr
        · show stepWildcard item < _
          omega
        · show bs.transitions.length < _
          omega
      · have := hfext tr htr
        omega
  · intro s hs
    simp only [List.mem_append, List.mem_singleton] at hs
    rcases hs with hs | rfl
    · exact hWF.states_ad s hs
    · cases hstate : item.state
      · simp [stepResolved, hstate]
      · simp [stepResolved, hstate]
      · simp only [stepResolved, hstate]
        exact hWF.states_ad _ (getD_mem bs.states (stepWildcard item) _ hwlt)
  · intro it hit'
    rw [hfq] at hit'
    simp only [List.length_append, List.length_cons, List.length_nil]
    rcases List.mem_append.mp hit' with h | h
    · have := hWF.q_wild it (by rw [hq]; exact List.mem_cons_of_mem _ h)
      omega
    · have := (hfnew it h).1
      omega
  · intro it hit'
    rw [hfq] at hit'
    simp only [List.length_append, List.length_cons, List.length_nil, hflen]
    rcases List.mem_append.mp hit' with h | h
    · have := hWF.q_par it (by rw [hq]; exact List.mem_cons_of_mem _ h)
      omega
    · have := (hfnew it h).2
      omega
  · simp only [List.length_append, List.length_cons, List.length_nil]
    have := hWF.two_le
    omega

theorem initBState_WF : WF initBState := by
  constructor
  · rfl
  · intro t ht
    rw [initBState] at ht
    simp only at ht
    rcases List.mem_cons.mp ht with rfl | ht
    · exact ⟨0, [], rfl⟩
    · rcases List.mem_cons.mp ht with rfl | ht
      · exact ⟨1, [], rfl⟩
      · simp at ht
  · intro t ht tr htr
    rw [initBState] at ht
    simp only at ht
    rcases List.mem_cons.mp ht with rfl | ht
    · simp only [List.mem_singleton] at htr
      subst htr
      show 0 < _
      simp [initBState]
    · rcases List.mem_cons.mp ht with rfl | ht
      · simp only [List.mem_singleton] at htr
        subst htr
        show 1 < _
        simp [initBState]
      · simp at ht
  · intro s hs
    rw [initBState] at hs
    simp only at hs
    rcases List.mem_cons.mp hs with rfl | hs
    · exact Or.inl rfl
    · rcases List.mem_cons.mp hs with rfl | hs
      · exact Or.inr rfl
      · simp at hs
  · intro it hit
    rw [initBState] at hit
    simp only at hit
    rcases List.mem_cons.mp hit with rfl | hit
    · show (0 : Nat) < _
      simp [initBState]
    · simp at hit
  · intro it hit
    rw [initBState] at hit
    simp only at hit
    rcases List.mem_cons.mp hit with rfl | hit
    · show (0 : Nat) < _
      simp [initBState]
    · simp at hit
  · simp [initBState]

theorem buildLoop_WF (rules : List Rule) :
    ∀ (fuel : Nat) (bs : BState), WF bs → WF (buildLoop rules fuel bs) := by
  intro fuel
  induction fuel with
  | zero => intro bs h; exact h
  | succ fuel ih =>
    intro bs h
    cases hq : bs.queue with
    | nil => rw [buildLoop, hq]; exact h
    | cons item rest =>
      rw [buildLoop, hq]
      exact ih _ (stepItem_WF rules bs item rest h hq)

theorem buildLoop_states_le (rules : List Rule) :
    ∀ (fuel : Nat) (bs : BState),
      bs.states.length ≤ (buildLoop rules fuel bs).states.length := by
  intro fuel
  induction fuel with
  | zero => intro bs; exact le_refl _
  | succ fuel ih =>
    intro bs
    cases hq : bs.queue with
    | nil => rw [buildLoop, hq]
    | cons item rest =>
      rw [buildLoop, hq]
      refine le_trans ?_ (ih (stepItem rules bs item rest))
      rw [stepItem_eq]
      simp

/-- The final compilation state reached by `Cylon.compile`. -/
def compileB (rules : List Rule) : BState :=
  buildLoop (sortRules rules) (compileFuel (sortRules rules)) initBState

theorem compile_eq_compileB (rules : List Rule) :
    Cylon.compile rules =
      { states := (compileB rules).states
        transitions := (compileB rules).transitions } := rfl

theorem compileB_WF (rules : List Rule) : WF (compileB rules) :=
  buildLoop_WF _ _ _ initBState_WF

theorem compileB_queue (rules : List Rule) : (compileB rules).queue = [] :=
  compile_queue_empty rules

theorem compileB_three (rules : List Rule) :
    3 ≤ (compileB rules).states.length := by
  rw [compileB, compileFuel]
  have h1 : buildLoop (sortRules rules)
      (((sortRules rules).map fun r => r.inner.length).sum + 1) initBState =
      buildLoop (sortRules rules)
        (((sortRules rules).map fun r => r.inner.length).sum)
        (stepItem (sortRules rules) initBState ⟨[], 0, 0, .intermediate⟩ []) :=
    rfl
  rw [h1]
  have h2 := buildLoop_states_le (sortRules rules)
    (((sortRules rules).map fun r => r.inner.length).sum)
    (stepItem (sortRules rules) initBState ⟨[], 0, 0, .intermediate⟩ [])
  have h3 : (stepItem (sortRules rules) initBState
      ⟨[], 0, 0, .intermediate⟩ []).states.length = 3 := by
    rw [stepItem_eq]
    simp [initBState]
  omega

/-- Well-formedness of a compiled automaton, as needed by the matcher:
states/transitions in lockstep, a match-any edge heading every
transition list, all targets in bounds, no `Intermediate` state, and at
least the two sinks plus the root. -/
structure CylonWF (m : Cylon) : Prop where
  len_eq : m.states.length = m.transitions.length
  head_any : ∀ t ∈ m.transitions, ∃ v rest, t = ⟨Edge.matchAny, v⟩ :: rest
  targets : ∀ t ∈ m.transitions, ∀ tr ∈ t, tr.next < m.states.length
  states_ad : ∀ s ∈ m.states, s = State.allow ∨ s = State.disallow
  three_le : 3 ≤ m.states.length

theorem compile_CylonWF (rules : List Rule) : CylonWF (Cylon.compile rules) := by
  have hWF := compileB_WF rules
  have hq : (compileB rules).queue = [] := compileB_queue rules
  refine ⟨hWF.len_eq, hWF.head_any, ?_, hWF.states_ad, compileB_three rules⟩
  intro t ht tr htr
  have := hWF.targets t ht tr htr
  rw [hq] at this
  simpa using this

/-! ## Totality of the matcher on compiled automata -/

/-- Any predicate satisfied by match-any edges succeeds on the reversed
scan of a transition list headed by a match-any edge: the head is the
last candidate tried, so the scan cannot come back empty. -/
theorem find?_reverse_any (t : List Transition) (p : Transition → Bool)
    (hp : ∀ v, p ⟨Edge.matchAny, v⟩ = true) (v : Nat)
    (rest : List Transition) (hht : t = ⟨Edge.matchAny, v⟩ :: rest) :
    ∃ tr, t.reverse.find? p = some tr ∧ tr ∈ t := by
  have hmem : (⟨Edge.matchAny, v⟩ : Transition) ∈ t.reverse := by
    rw [List.mem_reverse, hht]
    exact List.mem_cons_self _ _
  have hsome : (t.reverse.find? p).isSome := by
    rw [List.find?_isSome]
    exact ⟨⟨Edge.matchAny, v⟩, hmem, hp v⟩
  obtain ⟨tr, htr⟩ := Option.isSome_iff_exists.mp hsome
  exact ⟨tr, htr, List.mem_reverse.mp (List.mem_of_find?_eq_some htr)⟩

theorem runChars_total (m : Cylon) (hWF : CylonWF m) :
    ∀ (path : Path) (st : Nat), st < m.states.length →
      ∃ st', runChars m st path = some st' ∧ st' < m.states.length := by
  intro path
  induction path with
  | nil => intro st h; exact ⟨st, rfl, h⟩
  | cons c cs ih =>
    intro st h
    have hlt : st < m.transitions.length := by rw [← hWF.len_eq]; exact h
    have hget : m.transitions.get? st = some m.transitions[st] := by
      rw [List.get?_eq_getElem?, List.getElem?_eq_getElem hlt]
    have htmem : m.transitions[st] ∈ m.transitions := List.getElem_mem hlt
    obtain ⟨v, rest, hshape⟩ := hWF.head_any _ htmem
    obtain ⟨tr, hfind, htr⟩ :=
      find?_reverse_any _ (charPred c) (fun _ => rfl) v rest hshape
    have hnext : tr.next < m.states.length := hWF.targets _ htmem tr htr
    obtain ⟨st', hrun, hst'⟩ := ih tr.next hnext
    refine ⟨st', ?_, hst'⟩
    rw [runChars, hget]
    simp only [hfind, Option.map_some']
    exact hrun

theorem allow_total (m : Cylon) (hWF : CylonWF m) (path : Path) :
    ∃ b, m.allow path = some b := by
  obtain ⟨st, hrun, hst⟩ := runChars_total m hWF path 2
    (by have := hWF.three_le; omega)
  have hlt : st < m.transitions.length := by rw [← hWF.len_eq]; exact hst
  have hget : m.transitions.get? st = some m.transitions[st] := by
    rw [List.get?_eq_getElem?, List.getElem?_eq_getElem hlt]
  have htmem : m.transitions[st] ∈ m.transitions := List.getElem_mem hlt
  obtain ⟨v, rest, hshape⟩ := hWF.head_any _ htmem
  obtain ⟨tr, hfind, htr⟩ :=
    find?_reverse_any _ eowPred (fun _ => rfl) v rest hshape
  have hnext : tr.next < m.states.length := hWF.targets _ htmem tr htr
  have hsget : m.states.get? tr.next = some m.states[tr.next] := by
    rw [List.get?_eq_getElem?, List.getElem?_eq_getElem hnext]
  rcases hWF.states_ad _ (List.getElem_mem hnext) with hA | hD
  · refine ⟨true, ?_⟩
    rw [Cylon.allow, hrun]
    simp only [hget, hfind, Option.map_some', Option.getD_some, hsget, hA]
  · refine ⟨false, ?_⟩
    rw [Cylon.allow, hrun]
    simp only [hget, hfind, Option.map_some', Option.getD_some, hsget, hD]

/-! ## The end-of-path step, characterized -/

/-- The target of the last edge in `t` (in list order) that is
match-end-of-path or match-any — the edge the reversed scan of
`Cylon::allow`'s final step actually follows. -/
def lastEowOrAny : List Transition → Option Nat
  | [] => none
  | tr :: rest =>
    match lastEowOrAny rest with
    | some v => some v
    | none => if eowPred tr then some tr.next else none

theorem find?_reverse_eq_lastEowOrAny (t : List Transition) :
    (t.reverse.find? eowPred).map Transition.next = lastEowOrAny t := by
  induction t with
  | nil => rfl
  | cons tr rest ih =>
    rw [List.reverse_cons, List.find?_append]
    cases h : rest.reverse.find? eowPred with
    | some tr' =>
      have hrest : lastEowOrAny rest = some tr'.next := by
        rw [← ih, h, Option.map_some']
      rw [lastEowOrAny, hrest]
      simp [Option.or]
    | none =>
      have hrest : lastEowOrAny rest = none := by
        rw [← ih, h, Option.map_none']
      rw [lastEowOrAny, hrest]
      cases hp : eowPred tr <;> simp [List.find?, hp, Option.or]

/-- The end-of-path transition selection that claim C3 and the spec
describe: prefer a match-end-of-path edge whenever one is present, else
a match-any edge, else stay.  Defined from the claim's words, for
comparison with the code's actual behavior. -/
def eowStepClaimed (t : List Transition) (state : Nat) : Nat :=
  match t.find? (fun tr => tr.edge == Edge.matchEow) with
  | some tr => tr.next
  | none =>
    match t.find? (fun tr => tr.edge == Edge.matchAny) with
    | some tr => tr.next
    | none => state

/-! ## Claim theorems -/

/-- C1: for every DFA produced by `compile` from a rule list whose
patterns are all non-empty, and every path string (including the empty
string), `allow` returns a boolean without failing: the per-character
edge lookup always finds an applicable edge (the `unwrap` never
panics), all index lookups are in bounds, and the final state is never
`Intermediate` (the `unreachable!` branch is never taken) — in the
embedding, `allow` returns `some` boolean rather than `none`. -/
theorem C1_allow_total (rules : List Rule) (path : Path)
    (hne : ∀ r ∈ rules, r.inner ≠ []) :
    ∃ b, (Cylon.compile rules).allow path = some b :=
  allow_total _ (compile_CylonWF rules) path

theorem C1_allow_total_witness :
    (∀ r ∈ [Rule.disallow ['/'], Rule.allow ['/', 'f', 'i', 's', 'h']],
      r.inner ≠ []) ∧
    ∃ b, (Cylon.compile [Rule.disallow ['/'],
      Rule.allow ['/', 'f', 'i', 's', 'h']]).allow ['/', 'a'] = some b :=
  ⟨by decide, C1_allow_total _ ['/', 'a'] (by decide)⟩

/-- C2: for every rule list, every entry of the `states` array of the
compiled DFA is either `Allow` or `Disallow`; no entry is
`Intermediate` (a pending prefix's `Intermediate` classification is
resolved to its fallback state's classification before being stored). -/
theorem C2_states_resolved (rules : List Rule) :
    ∀ s ∈ (Cylon.compile rules).states,
      s = State.allow ∨ s = State.disallow :=
  (compile_CylonWF rules).states_ad

theorem C2_states_resolved_witness :
    State.allow = State.allow ∨ State.allow = State.disallow :=
  C2_states_resolved [Rule.allow ['/']] State.allow (by decide)

/-- C3 counterexample: the claim says the end-of-path step prefers a
match-end-of-path edge whenever the current state has one.  In the DFA
compiled from `[Allow "/$", Disallow "/*"]`, after consuming the path
`"/"` the matcher sits in state 3, whose transition list contains
exactly one match-end-of-path edge, and that edge's target (computed
here by the claim's own preference rule `eowStepClaimed`) is classified
`Allow`; yet the code answers `some false`, because it follows the
match-any edge appended after the match-end-of-path edge. -/
theorem C3_counterexample :
    (Cylon.compile [Rule.allow ['/', '$'],
        Rule.disallow ['/', '*']]).allow ['/'] = some false ∧
    runChars (Cylon.compile [Rule.allow ['/', '$'],
        Rule.disallow ['/', '*']]) 2 ['/'] = some 3 ∧
    ((Cylon.compile [Rule.allow ['/', '$'],
        Rule.disallow ['/', '*']]).transitions.getD 3 []).countP
        (fun tr => tr.edge == Edge.matchEow) = 1 ∧
    (Cylon.compile [Rule.allow ['/', '$'],
        Rule.disallow ['/', '*']]).states.getD
        (eowStepClaimed
          ((Cylon.compile [Rule.allow ['/', '$'],
            Rule.disallow ['/', '*']]).transitions.getD 3 []) 3)
        State.intermediate = State.allow := by
  refine ⟨by decide, by decide, by decide, by decide⟩

/-- C3 (amended): after all characters are consumed, exactly one more
transition attempt is made: the matcher scans the edge list from the
most recently appended edge backwards and moves to the target of the
first match-end-of-path or match-any edge it finds — i.e. the LAST such
edge in the list — remaining in the current state if there is none; the
answer is the classification of the resulting state.  (It prefers the
match-end-of-path edge only when no match-any edge was appended after
it.) -/
theorem C3_amended (m : Cylon) (path : Path) (st : Nat)
    (t : List Transition) (hrun : runChars m 2 path = some st)
    (hget : m.transitions.get? st = some t) :
    m.allow path =
      match m.states.get? ((lastEowOrAny t).getD st) with
      | some State.allow => some true
      | some State.disallow => some false
      | some State.intermediate => none
      | none => none := by
  rw [Cylon.allow, hrun]
  simp only [hget]
  rw [find?_reverse_eq_lastEowOrAny]

theorem C3_amended_witness :
    runChars (Cylon.compile ([] : List Rule)) 2 [] = some 2 ∧
    (Cylon.compile ([] : List Rule)).transitions.get? 2 =
      some [⟨Edge.matchAny, 0⟩] ∧
    (Cylon.compile ([] : List Rule)).allow [] =
      match (Cylon.compile ([] : List Rule)).states.get?
          ((lastEowOrAny [⟨Edge.matchAny, 0⟩]).getD 2) with
      | some State.allow => some true
      | some State.disallow => some false
      | some State.intermediate => none
      | none => none :=
  ⟨by decide, by decide,
    C3_amended (Cylon.compile []) [] 2 [⟨Edge.matchAny, 0⟩]
      (by decide) (by decide)⟩

/-- C4 counterexample: in the DFA compiled from `[Allow "/*"]`, the
state reached on `'/'` (index 3) carries TWO match-any edges — its
wildcard fallback and the edge for the `'*'` child — refuting "every
state has exactly one match-any edge in its transition list". -/
theorem C4_counterexample :
    ((Cylon.compile [Rule.allow ['/', '*']]).transitions.getD 3 []).countP
      (fun tr => tr.edge == Edge.matchAny) = 2 := by
  decide

/-- C4 (amended): in every compiled DFA, every state's transition list
is non-empty and its FIRST entry is a match-any edge (the universal
fallback); all other edges are appended after it, and further match-any
edges may appear among them (one for each child whose pattern continues
with the wildcard symbol). -/
theorem C4_amended (rules : List Rule) :
    ∀ t ∈ (Cylon.compile rules).transitions,
      ∃ v rest, t = ⟨Edge.matchAny, v⟩ :: rest :=
  (compile_CylonWF rules).head_any

theorem C4_amended_witness :
    ∃ v rest, ([⟨Edge.matchAny, 0⟩] : List Transition) =
      ⟨Edge.matchAny, v⟩ :: rest :=
  C4_amended [] [⟨Edge.matchAny, 0⟩] (by decide)

/-- C5: the google robots.txt "fish" examples.  With rules
`[Disallow "/", Allow "/fish"]`: `/fish`, `/fish.html`,
`/fish/salmon.html` are allowed; `/catfish`, `/Fish.asp`
(case-sensitive), `/?id=fish` are disallowed. -/
theorem C5_fish_examples :
    (Cylon.compile [Rule.disallow "/".toList,
        Rule.allow "/fish".toList]).allow "/fish".toList = some true ∧
    (Cylon.compile [Rule.disallow "/".toList,
        Rule.allow "/fish".toList]).allow "/fish.html".toList = some true ∧
    (Cylon.compile [Rule.disallow "/".toList,
        Rule.allow "/fish".toList]).allow "/fish/salmon.html".toList =
      some true ∧
    (Cylon.compile [Rule.disallow "/".toList,
        Rule.allow "/fish".toList]).allow "/catfish".toList = some false ∧
    (Cylon.compile [Rule.disallow "/".toList,
        Rule.allow "/fish".toList]).allow "/Fish.asp".toList = some false ∧
    (Cylon.compile [Rule.disallow "/".toList,
        Rule.allow "/fish".toList]).allow "/?id=fish".toList = some false := by
  refine ⟨by decide, by decide, by decide, by decide, by decide, by decide⟩

/-- C6: the wildcard-plus-anchor example.  With rules
`[Disallow "/", Allow "/*.php$"]`: `/filename.php` is allowed, while
`/filename.php?x` and `/filename.php5` are disallowed. -/
theorem C6_php_anchor_examples :
    (Cylon.compile [Rule.disallow "/".toList,
        Rule.allow "/*.php$".toList]).allow "/filename.php".toList =
      some true ∧
    (Cylon.compile [Rule.disallow "/".toList,
        Rule.allow "/*.php$".toList]).allow "/filename.php?x".toList =
      some false ∧
    (Cylon.compile [Rule.disallow "/".toList,
        Rule.allow "/*.php$".toList]).allow "/filename.php5".toList =
      some false := by
  refine ⟨by decide, by decide, by decide⟩

/-- C9: compiling the empty rule list yields the three-state DFA whose
root (index 2) is classified `Allow` and carries only its match-any
fallback edge to the Allow sink, and `allow` answers `some true` for
every path, including the empty one. -/
theorem C9_empty_rules (path : Path) :
    Cylon.compile [] =
      { states := [State.allow, State.disallow, State.allow]
        transitions := [[⟨Edge.matchAny, 0⟩], [⟨Edge.matchAny, 1⟩],
          [⟨Edge.matchAny, 0⟩]] } ∧
    (Cylon.compile []).allow path = some true := by
  refine ⟨by decide, ?_⟩
  have h0 : ∀ cs : Path, runChars (Cylon.compile []) 0 cs = some 0 := by
    intro cs
    induction cs with
    | nil => rfl
    | cons c cs ih => exact ih
  cases path with
  | nil => decide
  | cons c cs =>
    have h2 : runChars (Cylon.compile []) 2 (c :: cs) = some 0 := h0 cs
    rw [Cylon.allow, h2]
    decide

/-! ## Serialization (modelled)

Modelled from the spec: the crate's persisted form comes from
serde-derived `Serialize`/`Deserialize` on `Cylon` (compiler-generated
code, not present in `src/dfa.rs`); the spec requires only that the
persisted structured/binary representation preserve the `states` array
and the `transitions` array exactly.  We model it as a flat word stream
with length-prefixed arrays, the shape of a bincode-style encoding. -/

/-- Modelled from the spec: tag of a `State` in the persisted form. -/
def encodeState : State → Nat
  | .allow => 0
  | .disallow => 1
  | .intermediate => 2

/-- Modelled from the spec: decoder for `encodeState`. -/
def decodeState : Nat → Option State
  | 0 => some .allow
  | 1 => some .disallow
  | 2 => some .intermediate
  | _ => none

/-- Modelled from the spec: persisted form of one transition. -/
def encodeTransition (tr : Transition) : List Nat :=
  match tr.edge with
  | .matchChar c => [0, c.toNat, tr.next]
  | .matchAny => [1, tr.next]
  | .matchEow => [2, tr.next]

/-- Modelled from the spec: decoder for `encodeTransition`. -/
def decodeTransition : List Nat → Option (Transition × List Nat)
  | 0 :: c :: nxt :: rest => some (⟨Edge.matchChar (Char.ofNat c), nxt⟩, rest)
  | 1 :: nxt :: rest => some (⟨Edge.matchAny, nxt⟩, rest)
  | 2 :: nxt :: rest => some (⟨Edge.matchEow, nxt⟩, rest)
  | _ => none

/-- Modelled from the spec: persisted form of one state's transition
list (length-prefixed). -/
def encodeTransitions (t : List Transition) : List Nat :=
  t.length :: (t.map encodeTransition).flatten

/-- Modelled from the spec: decoder for a counted run of transitions. -/
def decodeTransitions : Nat → List Nat → Option (List Transition × List Nat)
  | 0, rest => some ([], rest)
  | n + 1, ws =>
    match decodeTransition ws with
    | none => none
    | some (tr, rest) =>
      match decodeTransitions n rest with
      | none => none
      | some (trs, rest') => some (tr :: trs, rest')

/-- Modelled from the spec: decoder for a counted run of states. -/
def decodeStates : Nat → List Nat → Option (List State × List Nat)
  | 0, rest => some ([], rest)
  | n + 1, w :: ws =>
    match decodeState w with
    | none => none
    | some s =>
      match decodeStates n ws with
      | none => none
      | some (ss, rest) => some (s :: ss, rest)
  | _ + 1, [] => none

/-- Modelled from the spec: decoder for a counted run of transition
lists. -/
def decodeTransLists :
    Nat → List Nat → Option (List (List Transition) × List Nat)
  | 0, rest => some ([], rest)
  | n + 1, w :: ws =>
    match decodeTransitions w ws with
    | none => none
    | some (t, rest) =>
      match decodeTransLists n rest with
      | none => none
      | some (ts, rest') => some (t :: ts, rest')
  | _ + 1, [] => none

/-- Modelled from the spec: the whole persisted form of a `Cylon`,
preserving the `states` array and `transitions` array exactly. -/
def serializeCylon (m : Cylon) : List Nat :=
  m.states.length :: (m.states.map encodeState) ++
    m.transitions.length :: (m.transitions.map encodeTransitions).flatten

/-- Modelled from the spec: restore a `Cylon` from its persisted form
(`none` on a malformed stream). -/
def deserializeCylon (ws : List Nat) : Option Cylon :=
  match ws with
  | [] => none
  | n :: ws =>
    match decodeStates n ws with
    | none => none
    | some (states, rest) =>
      match rest with
      | [] => none
      | k :: rest =>
        match decodeTransLists k rest with
        | none => none
        | some (transitions, rest') =>
          match rest' with
          | [] => some ⟨states, transitions⟩
          | _ :: _ => none

theorem decodeTransition_encode (tr : Transition) (rest : List Nat) :
    decodeTransition (encodeTransition tr ++ rest) = some (tr, rest) := by
  rcases tr with ⟨e, nxt⟩
  cases e <;> simp [encodeTransition, decodeTransition, Char.ofNat_toNat]

theorem decodeTransitions_encode (t : List Transition) (rest : List Nat) :
    decodeTransitions t.length ((t.map encodeTransition).flatten ++ rest) =
      some (t, rest) := by
  induction t with
  | nil => rfl
  | cons tr trs ih =>
    rw [List.length_cons, List.map_cons, List.flatten_cons, List.append_assoc,
      decodeTransitions, decodeTransition_encode]
    simp only [ih]

theorem decodeStates_encode (ss : List State) (rest : List Nat) :
    decodeStates ss.length ((ss.map encodeState) ++ rest) = some (ss, rest) := by
  induction ss with
  | nil => rfl
  | cons s ss ih =>
    rw [List.length_cons, List.map_cons, List.cons_append, decodeStates]
    cases s <;> simp [encodeState, decodeState, ih]

theorem decodeTransLists_encode (ts : List (List Transition))
    (rest : List Nat) :
    decodeTransLists ts.length ((ts.map encodeTransitions).flatten ++ rest) =
      some (ts, rest) := by
  induction ts with
  | nil => rfl
  | cons t ts ih =>
    rw [List.length_cons, List.map_cons, List.flatten_cons, encodeTransitions,
      List.append_assoc, List.cons_append, decodeTransLists,
      decodeTransitions_encode]
    simp only [ih]

/-- The persisted form restores the exact `Cylon` value. -/
theorem deserialize_serialize (m : Cylon) :
    deserializeCylon (serializeCylon m) = some m := by
  rcases m with ⟨ss, ts⟩
  have h2 := decodeTransLists_encode ts []
  rw [List.append_nil] at h2
  show deserializeCylon (ss.length :: ((ss.map encodeState) ++
    ts.length :: (ts.map encodeTransitions).flatten)) = some ⟨ss, ts⟩
  rw [deserializeCylon.eq_def]
  simp only [decodeStates_encode ss
    (ts.length :: (ts.map encodeTransitions).flatten), h2]

/-- C8: round-trip law.  Deserializing the serialized form of
`compile(R)` yields a DFA that is behaviorally identical to
`compile(R)` — in fact the very same value, because serialization
preserves the `states` and `transitions` arrays exactly — so `allow`
answers identically on every path. -/
theorem C8_roundtrip (rules : List Rule) (path : Path) :
    ∃ m', deserializeCylon (serializeCylon (Cylon.compile rules)) = some m' ∧
      m'.allow path = (Cylon.compile rules).allow path :=
  ⟨Cylon.compile rules, deserialize_serialize _, rfl⟩

/-! ## Rule order and duplicate patterns (C7, C10) -/

theorem filter_inner_length_le_one {l : List Rule}
    (hnd : (l.map Rule.inner).Nodup) (p : Path) :
    (l.filter fun x => x.inner == p).length ≤ 1 := by
  cases hfil : l.filter fun x => x.inner == p with
  | nil => simp
  | cons x rest =>
    cases rest with
    | nil => simp
    | cons y rest' =>
      exfalso
      have hsub : ((x :: y :: rest').map Rule.inner).Sublist
          (l.map Rule.inner) := by
        refine List.Sublist.map _ ?_
        rw [← hfil]
        exact List.filter_sublist l
      have hnd2 := hnd.sublist hsub
      have hx : x ∈ l.filter fun x => x.inner == p := by
        rw [hfil]; exact List.mem_cons_self _ _
      have hy : y ∈ l.filter fun x => x.inner == p := by
        rw [hfil]; exact List.mem_cons_of_mem _ (List.mem_cons_self _ _)
      have hx' : x.inner = p := by
        simpa using (List.mem_filter.mp hx).2
      have hy' : y.inner = p := by
        simpa using (List.mem_filter.mp hy).2
      rw [List.map_cons, List.map_cons, List.nodup_cons] at hnd2
      exact hnd2.1 (by rw [hx', hy']; exact List.mem_cons_self _ _)

/-- With pairwise distinct patterns, the stable sort erases the input
order entirely: any two permutations of the rule list sort to the same
list. -/
theorem sortRules_eq_of_perm {rules1 rules2 : List Rule}
    (hperm : List.Perm rules1 rules2)
    (hnd : (rules1.map Rule.inner).Nodup) :
    sortRules rules1 = sortRules rules2 := by
  apply sorted_eq_of_filter_eq (sortRules_sorted rules1) (sortRules_sorted rules2)
  intro p
  rw [sortRules_filter, sortRules_filter]
  have hperm' := hperm.filter fun x => x.inner == p
  have hlen := filter_inner_length_le_one hnd p
  cases hfil : rules1.filter fun x => x.inner == p with
  | nil =>
    rw [hfil] at hperm'
    exact (hperm'.symm.eq_nil).symm
  | cons x rest =>
    cases rest with
    | nil =>
      rw [hfil] at hperm'
      exact (List.singleton_perm.mp hperm')
    | cons y rest' =>
      rw [hfil] at hlen
      simp at hlen

/-- C7 counterexample.  The claim fails in two ways.
(1) Duplicate patterns defeat permutation invariance: the two rule
lists below are permutations of each other, both contain the
strict-prefix pair (`"/a"`, `"/ab"`), yet `allow "/a"` answers `false`
for the first and `true` for the second (the stable sort keeps the
earlier-listed duplicate of `"/a"` first, and its tag differs between
the two orders).
(2) A third overlapping rule defeats the per-pair specificity reading:
in `[Allow "/a", Disallow "/a*", Disallow "/ab"]` the path `"/ac"`
matches only up to the shorter pattern `"/a"` of the pair
(`"/a"`, `"/ab"`) — it does not extend to `"/ab"` — yet it is
classified `Disallow` (by the wildcard rule), not by the shorter rule's
`Allow` tag, as it is with the pair alone. -/
theorem C7_counterexample :
    List.Perm
      [Rule.disallow ['/', 'a'], Rule.allow ['/', 'a', 'b'],
        Rule.allow ['/', 'a']]
      [Rule.allow ['/', 'a'], Rule.allow ['/', 'a', 'b'],
        Rule.disallow ['/', 'a']] ∧
    (Cylon.compile [Rule.disallow ['/', 'a'], Rule.allow ['/', 'a', 'b'],
        Rule.allow ['/', 'a']]).allow ['/', 'a'] = some false ∧
    (Cylon.compile [Rule.allow ['/', 'a'], Rule.allow ['/', 'a', 'b'],
        Rule.disallow ['/', 'a']]).allow ['/', 'a'] = some true ∧
    (Cylon.compile [Rule.allow ['/', 'a'], Rule.disallow ['/', 'a', '*'],
        Rule.disallow ['/', 'a', 'b']]).allow ['/', 'a', 'c'] = some false ∧
    (Cylon.compile [Rule.allow ['/', 'a'],
        Rule.disallow ['/', 'a', 'b']]).allow ['/', 'a', 'c'] = some true := by
  refine ⟨by decide, by decide, by decide, by decide, by decide⟩

/-- C7 (amended): `compile` sorts the rules lexicographically by
pattern with a stable sort, so whenever the patterns are pairwise
distinct the compiled DFA — and hence every `allow` outcome, including
the shorter-rule/longer-rule behavior of any strict-prefix pair in the
list — is literally identical for every permutation of the input rule
list.  (With duplicate patterns the input order does matter, and with
additional overlapping rules a path matching only the shorter pattern
of a pair need not be classified by that pair at all; both caveats are
exhibited by the counterexample.) -/
theorem C7_amended (rules1 rules2 : List Rule)
    (hperm : List.Perm rules1 rules2)
    (hnd : (rules1.map Rule.inner).Nodup) :
    Cylon.compile rules1 = Cylon.compile rules2 ∧
    ∀ path, (Cylon.compile rules1).allow path =
      (Cylon.compile rules2).allow path := by
  have hs : sortRules rules1 = sortRules rules2 :=
    sortRules_eq_of_perm hperm hnd
  constructor
  · rw [Cylon.compile, Cylon.compile, hs]
  · intro path
    rw [Cylon.compile, Cylon.compile, hs]

theorem C7_amended_witness :
    (List.Perm [Rule.disallow ['/'], Rule.allow ['/', 'f']]
      [Rule.allow ['/', 'f'], Rule.disallow ['/']]) ∧
    (([Rule.disallow ['/'], Rule.allow ['/', 'f']].map Rule.inner).Nodup) ∧
    (Cylon.compile [Rule.disallow ['/'], Rule.allow ['/', 'f']] =
      Cylon.compile [Rule.allow ['/', 'f'], Rule.disallow ['/']] ∧
    ∀ path, (Cylon.compile [Rule.disallow ['/'],
        Rule.allow ['/', 'f']]).allow path =
      (Cylon.compile [Rule.allow ['/', 'f'],
        Rule.disallow ['/']]).allow path) :=
  ⟨by decide, by decide,
    C7_amended [Rule.disallow ['/'], Rule.allow ['/', 'f']]
      [Rule.allow ['/', 'f'], Rule.disallow ['/']] (by decide) (by decide)⟩

/-! ### A later duplicate pattern is invisible to the scan -/

theorem visitChild_dup (pfx : Path) (lastChar : Option Char) (w par n : Nat)
    (acc : FoldSt) (x y : Rule) (hxy : x.inner = y.inner) :
    visitChild pfx lastChar w par n
      (visitChild pfx lastChar w par n acc x) y =
      visitChild pfx lastChar w par n acc x := by
  by_cases hc : acc.curr = x.inner.take (pfx.length + 1)
  · rw [visitChild_skip pfx lastChar w par n acc x hc]
    apply visitChild_skip
    rw [← hxy]
    exact hc
  · rw [visitChild_emit pfx lastChar w par n acc x hc]
    apply visitChild_skip
    rw [← hxy]

theorem foldl_dup (pfx : Path) (lastChar : Option Char) (w par n : Nat)
    (l₁ l₂ : List Rule) (x y : Rule) (hxy : x.inner = y.inner)
    (acc : FoldSt) :
    (l₁ ++ x :: y :: l₂).foldl (visitChild pfx lastChar w par n) acc =
      (l₁ ++ x :: l₂).foldl (visitChild pfx lastChar w par n) acc := by
  rw [List.foldl_append, List.foldl_append, List.foldl_cons, List.foldl_cons,
    List.foldl_cons, visitChild_dup pfx lastChar w par n _ x y hxy]

theorem stepItem_dup (l₁ l₂ : List Rule) (x y : Rule)
    (hxy : x.inner = y.inner) (bs : BState) (item : QItem)
    (rest : List QItem) :
    stepItem (l₁ ++ x :: y :: l₂) bs item rest =
      stepItem (l₁ ++ x :: l₂) bs item rest := by
  rw [stepItem_eq, stepItem_eq]
  suffices h : stepFold (l₁ ++ x :: y :: l₂) bs item rest =
      stepFold (l₁ ++ x :: l₂) bs item rest by rw [h]
  rw [stepFold, stepFold, extending, extending, List.filter_append,
    List.filter_append, List.filter_cons, List.filter_cons, List.filter_cons]
  by_cases hp : (item.pfx.isPrefixOf x.inner && decide (x.inner ≠ item.pfx)) = true
  · have hpy : (item.pfx.isPrefixOf y.inner && decide (y.inner ≠ item.pfx)) = true := by
      rw [← hxy]
      exact hp
    rw [if_pos hp, if_pos hp, if_pos hpy]
    exact foldl_dup _ _ _ _ _ _ _ x y hxy _
  · have hpy : ¬(item.pfx.isPrefixOf y.inner && decide (y.inner ≠ item.pfx)) = true := by
      rw [← hxy]
      exact hp
    rw [if_neg hp, if_neg hp, if_neg hpy]

theorem buildLoop_dup (l₁ l₂ : List Rule) (x y : Rule)
    (hxy : x.inner = y.inner) :
    ∀ (fuel : Nat) (bs : BState),
      buildLoop (l₁ ++ x :: y :: l₂) fuel bs =
        buildLoop (l₁ ++ x :: l₂) fuel bs := by
  intro fuel
  induction fuel with
  | zero => intro bs; rfl
  | succ fuel ih =>
    intro bs
    cases hq : bs.queue with
    | nil => rw [buildLoop, buildLoop, hq]
    | cons item rest =>
      rw [buildLoop, buildLoop, hq]
      show buildLoop (l₁ ++ x :: y :: l₂) fuel
          (stepItem (l₁ ++ x :: y :: l₂) bs item rest) =
        buildLoop (l₁ ++ x :: l₂) fuel
          (stepItem (l₁ ++ x :: l₂) bs item rest)
      rw [stepItem_dup l₁ l₂ x y hxy]
      exact ih _

/-! ### Rules with equal patterns sit in one contiguous block when sorted -/

theorem sorted_block {s : List Rule} (hs : List.Pairwise ruleLe s) (p : Path) :
    ∃ u v, s = u ++ ((s.filter fun z => z.inner == p) ++ v) ∧
      (∀ z ∈ u, z.inner ≠ p) ∧ ∀ z ∈ v, z.inner ≠ p := by
  induction s with
  | nil => exact ⟨[], [], rfl, by simp, by simp⟩
  | cons a s' ih =>
    obtain ⟨u', v', hdecomp, hu', hv'⟩ := ih (List.pairwise_cons.mp hs).2
    by_cases ha : a.inner = p
    · cases hfil : s'.filter (fun z => z.inner == p) with
      | nil =>
        refine ⟨[], s', ?_, by simp, ?_⟩
        · simp [List.filter_cons, ha, hfil]
        · intro z hz
          have := List.filter_eq_nil_iff.mp hfil z hz
          simpa using this
      | cons wcls wrest =>
        have hwfil : wcls ∈ s'.filter (fun z => z.inner == p) := by
          rw [hfil]
          exact List.mem_cons_self _ _
        have hwmem : wcls ∈ s' := List.mem_of_mem_filter hwfil
        have hwcls : wcls.inner = p := by
          simpa using (List.mem_filter.mp hwfil).2
        have hu'nil : u' = [] := by
          cases hu'' : u' with
          | nil => rfl
          | cons b u'' =>
            exfalso
            have hbmem : b ∈ s' := by
              rw [hdecomp, hu'']
              exact List.mem_cons_self _ _
            have hab : ruleLe a b := (List.pairwise_cons.mp hs).1 b hbmem
            have hbw : ruleLe b wcls := by
              have hpair' := (List.pairwise_cons.mp hs).2
              rw [hdecomp, hu''] at hpair'
              rw [List.cons_append] at hpair'
              refine (List.pairwise_cons.mp hpair').1 wcls ?_
              rw [List.mem_append, hfil]
              exact Or.inr (List.mem_cons_self _ _)
            have h1 : lexLe p b.inner = true := by rw [← ha]; exact hab
            have h2 : lexLe b.inner p = true := by rw [← hwcls]; exact hbw
            exact (hu' b (by rw [hu'']; exact List.mem_cons_self _ _))
              (lexLe_antisymm h2 h1)
        refine ⟨[], v', ?_, by simp, hv'⟩
        rw [hu'nil, List.nil_append] at hdecomp
        simp only [List.filter_cons, ha]
        simp only [beq_self_eq_true, if_true]
        rw [List.nil_append, List.cons_append, ← hdecomp]
    · refine ⟨a :: u', v', ?_, ?_, hv'⟩
      · have : (a :: s').filter (fun z => z.inner == p) =
            s'.filter (fun z => z.inner == p) := by
          simp [List.filter_cons, ha]
        rw [this, List.cons_append, ← hdecomp]
      · intro z hz
        rcases List.mem_cons.mp hz with rfl | hz
        · exact ha
        · exact hu' z hz

theorem mem_filter_inner {l : List Rule} {z : Rule} {p : Path}
    (h : z ∈ l.filter fun z => z.inner == p) : z.inner = p := by
  simpa using (List.mem_filter.mp h).2

theorem sum_map_sortRules (l : List Rule) (f : Rule → Nat) :
    ((sortRules l).map f).sum = (l.map f).sum :=
  ((sortRules_perm l).map f).sum_eq

/-- C10: when two rules carry exactly the same pattern text, the
later-listed duplicate is silently ignored: compiling with it yields
literally the same DFA — states and transitions — as compiling without
it, so the compiled automaton's `allow` behavior is decided by the
earlier-listed duplicate alone (the stable sort keeps the earlier rule
first among equal patterns, and the child scan only consults the first
rule seen for each child prefix). -/
theorem filter_inner_cons_of_eq {r : Rule} {p : Path} {l : List Rule}
    (h : r.inner = p) :
    (r :: l).filter (fun z => z.inner == p) =
      r :: l.filter (fun z => z.inner == p) :=
  List.filter_cons_of_pos (by simp [h])

theorem filter_inner_cons_of_ne {r : Rule} {p : Path} {l : List Rule}
    (h : r.inner ≠ p) :
    (r :: l).filter (fun z => z.inner == p) =
      l.filter (fun z => z.inner == p) :=
  List.filter_cons_of_neg (by simp [h])

/-- C10: when two rules carry exactly the same pattern text, the
later-listed duplicate is silently ignored: compiling with it yields
literally the same DFA — same states, same transitions — as compiling
without it, so the compiled automaton's `allow` behavior is decided by
the earlier-listed duplicate alone (the stable lexicographic sort keeps
the earlier rule first among equal patterns, and the child scan only
uses the first rule seen for each child prefix). -/
theorem C10_later_duplicate_ignored (pre mid post : List Rule) (r r' : Rule)
    (hrr : r.inner = r'.inner) :
    Cylon.compile (pre ++ r :: mid ++ r' :: post) =
      Cylon.compile (pre ++ r :: mid ++ post) ∧
    ∀ path, (Cylon.compile (pre ++ r :: mid ++ r' :: post)).allow path =
      (Cylon.compile (pre ++ r :: mid ++ post)).allow path := by
  have hr'x : r'.inner = r.inner := hrr.symm
  -- the class of rules whose pattern is r.inner, in the sorted long list
  have hclsL : (sortRules (pre ++ r :: mid ++ r' :: post)).filter
        (fun z => z.inner == r.inner) =
      (pre.filter (fun z => z.inner == r.inner) ++
        r :: mid.filter (fun z => z.inner == r.inner)) ++
        r' :: post.filter (fun z => z.inner == r.inner) := by
    rw [sortRules_filter]
    simp only [List.filter_append,
      filter_inner_cons_of_eq (rfl : r.inner = r.inner),
      filter_inner_cons_of_eq hr'x]
  obtain ⟨u, v, hblock, hu, hv⟩ :=
    sorted_block (sortRules_sorted (pre ++ r :: mid ++ r' :: post)) r.inner
  rw [hclsL] at hblock
  -- split the class just before r'
  have hw'ne : pre.filter (fun z => z.inner == r.inner) ++
      r :: mid.filter (fun z => z.inner == r.inner) ≠ [] := by simp
  obtain ⟨w, x, hwx, hxinner⟩ :
      ∃ w x, w ++ [x] = pre.filter (fun z => z.inner == r.inner) ++
          r :: mid.filter (fun z => z.inner == r.inner) ∧
        x.inner = r.inner := by
    refine ⟨_, _, List.dropLast_append_getLast hw'ne, ?_⟩
    have hxmem := List.getLast_mem hw'ne
    rcases List.mem_append.mp hxmem with h | h
    · exact mem_filter_inner h
    · rcases List.mem_cons.mp h with heq | h
      · rw [heq]
      · exact mem_filter_inner h
  -- the long sorted list in collapse-ready shape
  have hsL : sortRules (pre ++ r :: mid ++ r' :: post) =
      (u ++ w) ++ x :: r' ::
        (post.filter (fun z => z.inner == r.inner) ++ v) := by
    rw [hblock, ← hwx]
    simp [List.append_assoc]
  -- the short sorted list is the collapsed shape
  have hsS : sortRules (pre ++ r :: mid ++ post) =
      (u ++ w) ++ x :: (post.filter (fun z => z.inner == r.inner) ++ v) := by
    have hsub : ((u ++ w) ++ x ::
        (post.filter (fun z => z.inner == r.inner) ++ v)).Sublist
        ((u ++ w) ++ x :: r' ::
          (post.filter (fun z => z.inner == r.inner) ++ v)) :=
      List.Sublist.append_left
        (List.Sublist.cons₂ _ (List.sublist_cons_self r' _)) _
    have hsorted2 := List.Pairwise.sublist hsub
      (by rw [← hsL]; exact sortRules_sorted _)
    refine (sorted_eq_of_filter_eq hsorted2 (sortRules_sorted _) ?_).symm
    intro p2
    rw [sortRules_filter]
    by_cases hp2 : p2 = r.inner
    · subst hp2
      have hufil : u.filter (fun z => z.inner == r.inner) = [] := by
        rw [List.filter_eq_nil_iff]
        intro z hz
        simp [hu z hz]
      have hvfil : v.filter (fun z => z.inner == r.inner) = [] := by
        rw [List.filter_eq_nil_iff]
        intro z hz
        simp [hv z hz]
      have hwall : ∀ z ∈ w, z.inner = r.inner := by
        intro z hz
        have hz2 : z ∈ w ++ [x] := List.mem_append.mpr (Or.inl hz)
        rw [hwx] at hz2
        rcases List.mem_append.mp hz2 with h | h
        · exact mem_filter_inner h
        · rcases List.mem_cons.mp h with heq | h
          · rw [heq]
          · exact mem_filter_inner h
      have hwfil : w.filter (fun z => z.inner == r.inner) = w := by
        rw [List.filter_eq_self]
        intro z hz
        simp [hwall z hz]
      have hCfil : (post.filter (fun z : Rule => z.inner == r.inner)).filter
            (fun z => z.inner == r.inner) =
          post.filter (fun z : Rule => z.inner == r.inner) := by
        rw [List.filter_eq_self]
        intro z hz
        simp [mem_filter_inner hz]
      simp only [List.filter_append, filter_inner_cons_of_eq hxinner,
        filter_inner_cons_of_eq (rfl : r.inner = r.inner),
        hufil, hvfil, hwfil, hCfil, List.nil_append, List.append_nil]
      rw [← hwx]
      simp [List.append_assoc]
    · have hp2x : x.inner ≠ p2 := by
        rw [hxinner]
        exact fun h => hp2 h.symm
      have hp2r' : r'.inner ≠ p2 := by
        rw [hr'x]
        exact fun h => hp2 h.symm
      have h1 : ((u ++ w) ++ x ::
            (post.filter (fun z : Rule => z.inner == r.inner) ++ v)).filter
              (fun z => z.inner == p2) =
          ((u ++ w) ++ x :: r' ::
            (post.filter (fun z : Rule => z.inner == r.inner) ++ v)).filter
              (fun z => z.inner == p2) := by
        simp only [List.filter_append, filter_inner_cons_of_ne hp2x,
          filter_inner_cons_of_ne hp2r']
      have h2 : (pre ++ r :: mid ++ r' :: post).filter
            (fun z => z.inner == p2) =
          (pre ++ r :: mid ++ post).filter (fun z => z.inner == p2) := by
        simp only [List.filter_append, filter_inner_cons_of_ne hp2r']
      rw [h1, ← hsL, sortRules_filter, h2]
  -- assemble via the loop equality and fuel robustness
  have hxr' : x.inner = r'.inner := by rw [hxinner, hrr]
  have hloop : ∀ (fuel : Nat) (bs : BState),
      buildLoop (sortRules (pre ++ r :: mid ++ r' :: post)) fuel bs =
        buildLoop (sortRules (pre ++ r :: mid ++ post)) fuel bs := by
    intro fuel bs
    rw [hsL, hsS]
    exact buildLoop_dup _ _ _ r' hxr' fuel bs
  have hfuelle : compileFuel (sortRules (pre ++ r :: mid ++ post)) ≤
      compileFuel (sortRules (pre ++ r :: mid ++ r' :: post)) := by
    rw [compileFuel, compileFuel, sum_map_sortRules, sum_map_sortRules]
    simp only [List.map_append, List.map_cons, List.sum_append, List.sum_cons]
    omega
  have hrobust := buildLoop_fuel_mono
    (sortRules (pre ++ r :: mid ++ post)) (sortRules_sorted _)
    (compileFuel (sortRules (pre ++ r :: mid ++ post)))
    (compileFuel (sortRules (pre ++ r :: mid ++ r' :: post)))
    initBState (qMeasure_init _) hfuelle
  have hmain : Cylon.compile (pre ++ r :: mid ++ r' :: post) =
      Cylon.compile (pre ++ r :: mid ++ post) := by
    rw [Cylon.compile, Cylon.compile, hloop, ← hrobust]
  exact ⟨hmain, fun path => by rw [hmain]⟩

theorem C10_later_duplicate_ignored_witness :
    Cylon.compile [Rule.allow ['/', 'a'], Rule.disallow ['/', 'a']] =
      Cylon.compile [Rule.allow ['/', 'a']] ∧
    (Cylon.compile [Rule.allow ['/', 'a'],
        Rule.disallow ['/', 'a']]).allow ['/', 'a'] =
      (Cylon.compile [Rule.allow ['/', 'a']]).allow ['/', 'a'] :=
  ⟨(C10_later_duplicate_ignored [] [] [] (Rule.allow ['/', 'a'])
      (Rule.disallow ['/', 'a']) rfl).1,
    (C10_later_duplicate_ignored [] [] [] (Rule.allow ['/', 'a'])
      (Rule.disallow ['/', 'a']) rfl).2 ['/', 'a']⟩

end Cylon2Proof
